import Mathlib

/-!
Shallow embedding of the version translation engine of
`amulet/world_interface/chunk/translators/__init__.py`
(class `Translator`: `_translate`, the `get_block_at` closure,
`to_universal` / `from_universal` and their `translate` closures,
`_biomes_to_universal` / `_biomes_from_universal`),
together with models of the collaborator classes that the module imports
but that are not part of the sources (`Block`, `BlockEntity`, `Entity`,
`BlockManager`, `Chunk` from `amulet.api`), modelled from the spec.
-/

namespace Amulet

/-- A voxel position (x, y, z), integer coordinates as in the source. -/
abbrev Pos := Int × Int × Int

/-- Modelled from the spec: a single sub-block layer of `amulet.api.block.Block`
(not under src/): namespace, base name, ordered property mapping. -/
structure BlockBase where
  ns : String
  base_name : String
  properties : List (String × String)
deriving DecidableEq, Repr

/-- Modelled from the spec: `amulet.api.block.Block` (not under src/):
an immutable value made of a base sub-block plus zero or more ordered extra
sub-blocks; equality is componentwise. -/
structure Block where
  base_block : BlockBase
  extra_blocks : List BlockBase
deriving DecidableEq, Repr

/-- Modelled from the spec: `Block.__add__`: composition producing a new Block
whose extra-block list is the concatenation of both operands' base+extra
chains (the left operand's base stays the base). -/
def Block.add (a b : Block) : Block :=
  ⟨a.base_block, a.extra_blocks ++ (b.base_block :: b.extra_blocks)⟩

/-- Modelled from the spec: `amulet.api.entity.Entity` (not under src/);
the engine never inspects entity contents, so it is an opaque tag. -/
structure Entity where
  eid : Nat
deriving DecidableEq, Repr

/-- Modelled from the spec: `amulet.api.block_entity.BlockEntity`
(not under src/): nullable namespace, base name, integer world position. -/
structure BlockEntity where
  ens : Option String
  base_name : String
  x : Int
  y : Int
  z : Int
deriving DecidableEq, Repr

/-- Modelled from the spec: `amulet.api.block.BlockManager` (not under src/):
an insertion-ordered, deduplicating palette; `get_add_block` returns the
index of an equal value if present, else appends the value and returns the
new index. -/
structure BlockManager (V : Type) where
  blocks : List V

/-- Index of the first occurrence of `v` in `l`, if any. -/
def idxOf? {V : Type} [DecidableEq V] : List V → V → Option Nat
  | [], _ => none
  | w :: ws, v => if w = v then some 0 else (idxOf? ws v).map (· + 1)

/-- Modelled from the spec: `BlockManager.get_add_block`. -/
def BlockManager.get_add_block {V : Type} [DecidableEq V]
    (m : BlockManager V) (v : V) : BlockManager V × Nat :=
  match idxOf? m.blocks v with
  | some i => (m, i)
  | none => (⟨m.blocks ++ [v]⟩, m.blocks.length)

/-- The chunk's dense 3-D array of palette indices (`chunk.blocks`, a numpy
array): a scan-ordered list of valid positions and the array contents as a
function on positions. -/
structure VoxelArray where
  dom : List Pos
  val : Pos → Nat

/-- `numpy.where(chunk.blocks == i)`: the positions holding index `i`,
in scan order. -/
def VoxelArray.locs (a : VoxelArray) (i : Nat) : List Pos :=
  a.dom.filter (fun p => a.val p == i)

/-- `chunk.blocks[chunk.blocks == old] = new`: bulk substitution. -/
def VoxelArray.subst (a : VoxelArray) (old new : Nat) : VoxelArray :=
  ⟨a.dom, fun p => if a.val p = old then new else a.val p⟩

/-- `chunk.blocks[x, y, z] = n`: a single-voxel write. -/
def VoxelArray.write (a : VoxelArray) (q : Pos) (n : Nat) : VoxelArray :=
  ⟨a.dom, fun p => if p = q then n else a.val p⟩

/-- Modelled from the spec: `amulet.api.chunk.Chunk` (not under src/):
chunk coordinates, the voxel-index array, the biome index array and the
block-entity collection. `V` is the palette value type. -/
structure Chunk (V : Type) where
  cx : Int
  cz : Int
  blocks : VoxelArray
  biomes : List Int
  block_entities : List BlockEntity

/-- Result quadruple of the per-value `translate` closure:
(translated block, block entity, produced entities, context-dependent flag). -/
structure TResult (V : Type) where
  block : V
  block_entity : Option BlockEntity
  entities : List Entity
  extra : Bool
deriving DecidableEq

/-- The neighbor-lookup closure type handed to the per-value translator:
relative offset to (world value, block entity there); `none` models the
lookup raising (index error / no data). -/
abbrev GetBlockFn (V : Type) := Pos → Option (V × Option BlockEntity)

/-- The per-value `translate` argument of `Translator._translate`. -/
abbrev TranslateFn (V : Type) := V → Option (GetBlockFn V) → TResult V

/-- The `get_chunk_callback` neighbor resolver:
relative chunk coordinates to (chunk, palette). -/
abbrev ChunkCallback (V : Type) := Int → Int → Chunk V × List V

/-- The `get_block_at` closure of `Translator._translate` (source lines
94-115), bound to the deferred voxel `(x, y, z)`: add the relative offset,
floor-divide x and z by 16 to find the owning chunk; if that is (0, 0) read
from the current chunk and palette, else resolve the neighbor chunk through
the callback and read from it.  Python `//` is `Int.fdiv` and `%` is
`Int.fmod`; a failed palette index or absent callback yields `none`. -/
def get_block_at {V : Type} (cb : Option (ChunkCallback V)) (palette : List V)
    (chunk : Chunk V) (x y z : Int) (pos : Pos) :
    Option (V × Option BlockEntity) :=
  let dx := pos.1 + x
  let dy := pos.2.1 + y
  let dz := pos.2.2 + z
  let ccx := dx.fdiv 16
  let ccz := dz.fdiv 16
  if ccx = 0 ∧ ccz = 0 then
    match palette.get? (chunk.blocks.val (dx.fmod 16, dy, dz.fmod 16)) with
    | some v =>
        some (v, chunk.block_entities.find?
          (fun be => be.x == dx && be.y == dy && be.z == dz))
    | none => none
  else
    match cb with
    | none => none
    | some f =>
        let lc := f ccx ccz
        match lc.2.get? (lc.1.blocks.val (dx.fmod 16, dy, dz.fmod 16)) with
        | some v =>
            some (v, lc.1.block_entities.find?
              (fun be => be.x == dx && be.y == dy && be.z == dz))
        | none => none

/-- State of Pass 1 of `Translator._translate`: deferred palette indices,
output block entities, the fresh output palette, and the bulk
old-to-new index mapping (insertion-ordered). -/
structure Pass1State (V : Type) where
  todo : List Nat
  obes : List BlockEntity
  finished : BlockManager V
  mappings : List (Nat × Nat)

/-- One Pass-1 iteration (source lines 76-88) for palette entry
`(i, input_block)`.  If the result is context-dependent and a resolver is
available, defer `i`; otherwise register the translated value and record the
index mapping.  A produced BlockEntity is the *same object* mutated and
appended once per voxel holding `i`, so the appended entries all alias one
record whose offsets accumulate over all those voxels. -/
def pass1Apply {V : Type} [DecidableEq V] (hasCb : Bool) (chunk : Chunk V)
    (s : Pass1State V) (i : Nat) (r : TResult V) : Pass1State V :=
  if r.extra && hasCb then
    { s with todo := s.todo ++ [i] }
  else
    let g := s.finished.get_add_block r.block
    let s' := { s with finished := g.1, mappings := s.mappings ++ [(i, g.2)] }
    match r.block_entity with
    | none => s'
    | some be =>
        let locs := chunk.blocks.locs i
        let be' : BlockEntity := { be with
          x := be.x + (locs.map (fun p => p.1 + chunk.cx * 16)).sum,
          y := be.y + (locs.map (fun p => p.2.1)).sum,
          z := be.z + (locs.map (fun p => p.2.2 + chunk.cz * 16)).sum }
        { s' with obes := s'.obes ++ List.replicate locs.length be' }

/-- One Pass-1 iteration: translate the palette entry with no neighbor
lookup and apply the outcome. -/
def pass1Step {V : Type} [DecidableEq V] (tr : TranslateFn V) (hasCb : Bool)
    (chunk : Chunk V) (s : Pass1State V) (iv : Nat × V) : Pass1State V :=
  pass1Apply hasCb chunk s iv.1 (tr iv.2 none)

/-- Pass 1 over an enumerated palette segment. -/
def pass1Go {V : Type} [DecidableEq V] (tr : TranslateFn V) (hasCb : Bool)
    (chunk : Chunk V) (l : List (Nat × V)) (s : Pass1State V) : Pass1State V :=
  l.foldl (pass1Step tr hasCb chunk) s

/-- Pass 1 of `Translator._translate` (source lines 71-88). -/
def pass1 {V : Type} [DecidableEq V] (tr : TranslateFn V) (hasCb : Bool)
    (chunk : Chunk V) (palette : List V) : Pass1State V :=
  pass1Go tr hasCb chunk palette.enum ⟨[], [], ⟨[]⟩, []⟩

/-- State of Pass 2: output block entities, the shared output palette, and
the per-voxel index mapping `block_mappings` (insertion-ordered). -/
structure Pass2State (V : Type) where
  obes : List BlockEntity
  finished : BlockManager V
  bmap : List (Pos × Nat)

/-- One Pass-2 iteration (source lines 92-124) for the deferred voxel `p`:
re-translate the voxel's palette value with the `get_block_at` closure bound
to `p`, append any produced BlockEntity at the voxel's absolute coordinate,
register the result in the shared output palette and record the voxel's own
new index. -/
def pass2Apply {V : Type} [DecidableEq V] (chunk : Chunk V)
    (s : Pass2State V) (p : Pos) (r : TResult V) : Pass2State V :=
  let s1 := match r.block_entity with
    | none => s
    | some be =>
        { s with obes := s.obes ++ [{ be with
            x := be.x + p.1 + chunk.cx * 16,
            y := be.y + p.2.1,
            z := be.z + p.2.2 + chunk.cz * 16 }] }
  let g := s1.finished.get_add_block r.block
  { s1 with finished := g.1, bmap := s1.bmap ++ [(p, g.2)] }

/-- The Pass-2 re-translation of the voxel `p` (source lines 117-118):
the voxel's palette value translated with the `get_block_at` closure bound
to `p`. -/
def pass2TResult {V : Type} [Inhabited V] (tr : TranslateFn V)
    (cb : Option (ChunkCallback V)) (chunk : Chunk V) (palette : List V)
    (p : Pos) : TResult V :=
  tr (palette.getD (chunk.blocks.val p) default)
    (some (get_block_at cb palette chunk p.1 p.2.1 p.2.2))

/-- One Pass-2 iteration: re-translate the deferred voxel's palette value
with the `get_block_at` closure bound to it and apply the outcome. -/
def pass2Voxel {V : Type} [DecidableEq V] [Inhabited V] (tr : TranslateFn V)
    (cb : Option (ChunkCallback V)) (chunk : Chunk V) (palette : List V)
    (s : Pass2State V) (p : Pos) : Pass2State V :=
  pass2Apply chunk s p (pass2TResult tr cb chunk palette p)

/-- Pass 2 over the voxels holding one deferred index (source line 92). -/
def pass2Index {V : Type} [DecidableEq V] [Inhabited V] (tr : TranslateFn V)
    (cb : Option (ChunkCallback V)) (chunk : Chunk V) (palette : List V)
    (s : Pass2State V) (index : Nat) : Pass2State V :=
  (chunk.blocks.locs index).foldl (pass2Voxel tr cb chunk palette) s

/-- Pass 2 of `Translator._translate` (source lines 90-124). -/
def pass2Go {V : Type} [DecidableEq V] [Inhabited V] (tr : TranslateFn V)
    (cb : Option (ChunkCallback V)) (chunk : Chunk V) (palette : List V)
    (todo : List Nat) (s : Pass2State V) : Pass2State V :=
  todo.foldl (pass2Index tr cb chunk palette) s

/-- The Pass-1 bulk substitutions (source lines 126-127), applied
sequentially in insertion order. -/
def applySubsts (a : VoxelArray) (ms : List (Nat × Nat)) : VoxelArray :=
  ms.foldl (fun b m => b.subst m.1 m.2) a

/-- The Pass-2 per-voxel writes (source lines 128-129), applied
sequentially in insertion order. -/
def applyWrites (a : VoxelArray) (ws : List (Pos × Nat)) : VoxelArray :=
  ws.foldl (fun b w => b.write w.1 w.2) a

/-- `Translator._translate` (source lines 51-131): if `full_translate` is
false return the input unchanged; else run Pass 1 over the palette, Pass 2
over the deferred indices, apply the bulk substitutions then the per-voxel
writes to the voxel-index array, replace the block-entity collection, and
return the chunk with the finished output palette. -/
def translateChunk {V : Type} [DecidableEq V] [Inhabited V]
    (tr : TranslateFn V) (cb : Option (ChunkCallback V)) (chunk : Chunk V)
    (palette : List V) (full_translate : Bool) : Chunk V × List V :=
  if !full_translate then (chunk, palette)
  else
    let s1 := pass1 tr cb.isSome chunk palette
    let s2 := pass2Go tr cb chunk palette s1.todo ⟨s1.obes, s1.finished, []⟩
    let blocks' := applyWrites (applySubsts chunk.blocks s1.mappings) s2.bmap
    ({ chunk with blocks := blocks', block_entities := s2.obes },
      s2.finished.blocks)

/-- A palette value as the directional wrappers see it: a Block, an Entity,
or Python `None` (the closures return `final_block = None` for non-Block
inputs, and that value is registered into the output palette). -/
inductive WVal
  | blk (b : Block)
  | ent (e : Entity)
  | null
deriving DecidableEq, Repr

instance : Inhabited WVal := ⟨WVal.null⟩

/-- The single sub-block output of the version's translator: a Block,
an Entity, or neither. -/
inductive TransObj
  | blk (b : Block)
  | ent (e : Entity)
  | null
deriving DecidableEq, Repr

/-- The version profile's single-value translator
(`version.get().to_universal` / `.from_universal`):
sub-block and optional neighbor lookup to
(output object, output block entity, context-dependent flag). -/
abbrev SubTranslator :=
  BlockBase → Option (GetBlockFn WVal) → TransObj × Option BlockEntity × Bool

/-- The local mutable state of the `translate` closures of
`to_universal` / `from_universal` (source lines 160-163). -/
structure FoldAcc where
  final_block : Option Block
  final_block_entity : Option BlockEntity
  final_entities : List Entity
  final_extra : Bool

/-- One iteration of the composite fold (source lines 166-183) at
composition depth `d.1` on sub-block `d.2`: a Block output joins the
accumulator via `+` (first non-null output becomes the accumulator) and, at
depth zero only, supplies the block entity; an Entity output is appended to
the side collection; the context-dependent flag is OR-ed in always. -/
def foldStep (translator : SubTranslator) (gbc : Option (GetBlockFn WVal))
    (acc : FoldAcc) (d : Nat × BlockBase) : FoldAcc :=
  let o := translator d.2 gbc
  match o.1 with
  | TransObj.blk ob =>
      { acc with
        final_block := match acc.final_block with
          | none => some ob
          | some a => some (a.add ob),
        final_block_entity :=
          if d.1 = 0 then o.2.1 else acc.final_block_entity,
        final_extra := acc.final_extra || o.2.2 }
  | TransObj.ent e =>
      { acc with
        final_entities := acc.final_entities ++ [e],
        final_extra := acc.final_extra || o.2.2 }
  | TransObj.null => { acc with final_extra := acc.final_extra || o.2.2 }

/-- The `translate` closure built inside `Translator.to_universal`
(source lines 156-189): dispatch on the input's kind; for a Block, fold the
translator over the base sub-block followed by the extra sub-blocks; for an
Entity (or None) return no block, no block entity, no entities and a false
flag.  The debug-only namespace check (lines 170-171) only prints and is
omitted. -/
def translateToUniversal (translator : SubTranslator) : TranslateFn WVal :=
  fun input gbc =>
    match input with
    | WVal.blk b =>
        let chain := b.base_block :: b.extra_blocks
        let r := chain.enum.foldl (foldStep translator gbc) ⟨none, none, [], false⟩
        ⟨match r.final_block with
          | none => WVal.null
          | some fb => WVal.blk fb,
          r.final_block_entity, r.final_entities, r.final_extra⟩
    | _ => ⟨WVal.null, none, [], false⟩

/-- The `translate` closure built inside `Translator.from_universal`
(source lines 228-261); the source duplicates the body of the
`to_universal` closure verbatim (but for the inverted debug check, which
only prints), and so does the model. -/
def translateFromUniversal (translator : SubTranslator) : TranslateFn WVal :=
  fun input gbc =>
    match input with
    | WVal.blk b =>
        let chain := b.base_block :: b.extra_blocks
        let r := chain.enum.foldl (foldStep translator gbc) ⟨none, none, [], false⟩
        ⟨match r.final_block with
          | none => WVal.null
          | some fb => WVal.blk fb,
          r.final_block_entity, r.final_entities, r.final_extra⟩
    | _ => ⟨WVal.null, none, [], false⟩

/-- Sorted duplicate-free insertion, building the sorted distinct-value
list that `numpy.unique` returns. -/
def insSorted (v : Int) : List Int → List Int
  | [] => [v]
  | w :: ws => if v < w then v :: w :: ws
    else if v = w then w :: ws
    else w :: insSorted v ws

/-- The sorted distinct values of `arr` (first component of
`numpy.unique`). -/
def uniqueSorted (arr : List Int) : List Int := arr.foldr insSorted []

/-- Index of `v` in `l` (total; reachable uses have `v ∈ l`). -/
def listIndexOf [DecidableEq α] (l : List α) (v : α) : Nat :=
  (idxOf? l v).getD 0

/-- `numpy.unique(arr, return_inverse=True)`: the sorted distinct values and
each element's index into them. -/
def npUnique (arr : List Int) : List Int × List Nat :=
  (uniqueSorted arr, arr.map (fun v => listIndexOf (uniqueSorted arr) v))

/-- `Translator._biomes_to_universal` (source lines 275-278): translate only
the distinct biome values through `f` and re-expand through the inverse
index. -/
def biomes_to_universal (f : Int → Int) (arr : List Int) : List Int :=
  let u := (npUnique arr).1
  let inv := (npUnique arr).2
  let tu := u.map f
  inv.map (fun j => tu.getD j 0)

/-- `Translator._biomes_from_universal` (source lines 280-283): the same
re-indexing scheme in the opposite direction. -/
def biomes_from_universal (f : Int → Int) (arr : List Int) : List Int :=
  let u := (npUnique arr).1
  let inv := (npUnique arr).2
  let tu := u.map f
  inv.map (fun j => tu.getD j 0)

/-- A fallible per-value `translate` closure: `error` models the per-value
translator raising an exception inside the closure (which catches
nothing). -/
abbrev TranslateFnE (V : Type) :=
  V → Option (GetBlockFn V) → Except Unit (TResult V)

/-- Fallible Pass-1 iteration: a translator exception propagates out. -/
def pass1StepE {V : Type} [DecidableEq V] (tr : TranslateFnE V)
    (hasCb : Bool) (chunk : Chunk V) (s : Pass1State V) (iv : Nat × V) :
    Except Unit (Pass1State V) :=
  match tr iv.2 none with
  | Except.error e => Except.error e
  | Except.ok r => Except.ok (pass1Apply hasCb chunk s iv.1 r)

/-- Fallible Pass 1 over the enumerated palette. -/
def pass1E {V : Type} [DecidableEq V] (tr : TranslateFnE V) (hasCb : Bool)
    (chunk : Chunk V) (palette : List V) : Except Unit (Pass1State V) :=
  palette.enum.foldlM (pass1StepE tr hasCb chunk) ⟨[], [], ⟨[]⟩, []⟩

/-- Fallible Pass-2 iteration. -/
def pass2VoxelE {V : Type} [DecidableEq V] [Inhabited V] (tr : TranslateFnE V)
    (cb : Option (ChunkCallback V)) (chunk : Chunk V) (palette : List V)
    (s : Pass2State V) (p : Pos) : Except Unit (Pass2State V) :=
  match tr (palette.getD (chunk.blocks.val p) default)
      (some (get_block_at cb palette chunk p.1 p.2.1 p.2.2)) with
  | Except.error e => Except.error e
  | Except.ok r => Except.ok (pass2Apply chunk s p r)

/-- Fallible Pass 2 over the deferred indices. -/
def pass2E {V : Type} [DecidableEq V] [Inhabited V] (tr : TranslateFnE V)
    (cb : Option (ChunkCallback V)) (chunk : Chunk V) (palette : List V)
    (todo : List Nat) (s : Pass2State V) : Except Unit (Pass2State V) :=
  todo.foldlM (fun s' index =>
    (chunk.blocks.locs index).foldlM (pass2VoxelE tr cb chunk palette) s') s

/-- `Translator._translate` with a fallible per-value translator.  All
translator calls happen before the first mutation of the chunk (the source
rewrites `chunk.blocks` and `chunk.block_entities` only on lines 126-130,
after both passes), so an exception leaves the chunk exactly as the caller
passed it in; the embedding mirrors that structurally. -/
def translateChunkE {V : Type} [DecidableEq V] [Inhabited V]
    (tr : TranslateFnE V) (cb : Option (ChunkCallback V)) (chunk : Chunk V)
    (palette : List V) (full_translate : Bool) :
    Except Unit (Chunk V × List V) :=
  if !full_translate then Except.ok (chunk, palette)
  else
    match pass1E tr cb.isSome chunk palette with
    | Except.error e => Except.error e
    | Except.ok s1 =>
        match pass2E tr cb chunk palette s1.todo ⟨s1.obes, s1.finished, []⟩ with
        | Except.error e => Except.error e
        | Except.ok s2 =>
            let blocks' := applyWrites (applySubsts chunk.blocks s1.mappings) s2.bmap
            Except.ok
              ({ chunk with blocks := blocks', block_entities := s2.obes },
                s2.finished.blocks)

/-- The fatal conditions of the directional wrappers: the version-profile
lookup (source line 153 in `to_universal`, line 222 in `from_universal`)
raising, or a per-value translator raising inside `_translate`. -/
inductive TError
  | missingVersion
  | translatorFailed
deriving DecidableEq, Repr

/-- The parts of the PyMCTranslate version profile that `to_universal` and
`from_universal` use besides the per-value translator: the two biome
translators, the block-entity rename table (base name to new namespace and
base name) and its inverse (keyed by the full namespaced name).
Modelled from the spec: the profile class itself is external to the
repository. -/
structure VersionProfile where
  biome_to_universal : Int → Int
  biome_from_universal : Int → Int
  block_entity_map : Option (List (String × (Option String × String)))
  block_entity_map_inverse :
    List ((Option String × String) × (Option String × String))

/-- The block-entity rename loop of `to_universal` (source lines 193-197):
a BlockEntity with unset namespace whose base name is a key of the rename
table has its namespaced name replaced by the table's value.  Modelled from
the spec: the `namespaced_name` setter lives in `amulet.api.block_entity`,
outside the sources. -/
def renameBlockEntities
    (m : Option (List (String × (Option String × String))))
    (bes : List BlockEntity) : List BlockEntity :=
  match m with
  | none => bes
  | some tbl => bes.map (fun be =>
      if be.ens = none then
        match tbl.lookup be.base_name with
        | some nn => { be with ens := nn.1, base_name := nn.2 }
        | none => be
      else be)

/-- `Translator.to_universal` (source lines 133-200) with its fatal error
paths, under Python's in-place mutation semantics: an `error` outcome
carries the chunk state the caller is left holding at the raise.  The
sequencing follows the source: the version-profile lookup first (a missing
profile raises before anything is touched), then `_unpack_palette` (the
identity, source line 293), then the biome translation and the block-entity
renames — both mutating the chunk — and only then `_translate` with the
per-value translator (abstracted here as the whole fallible closure,
since the closure catches nothing a translator exception is the closure's
exception). -/
def to_universalE (version : Option VersionProfile) (tr : TranslateFnE WVal)
    (cb : Option (ChunkCallback WVal)) (chunk : Chunk WVal)
    (palette : List WVal) (full_translate : Bool) :
    Except (TError × Chunk WVal) (Chunk WVal × List WVal) :=
  match version with
  | none => Except.error (TError.missingVersion, chunk)
  | some v =>
      let chunk1 : Chunk WVal :=
        { chunk with biomes := biomes_to_universal v.biome_to_universal chunk.biomes }
      let chunk2 : Chunk WVal :=
        { chunk1 with block_entities := renameBlockEntities v.block_entity_map chunk1.block_entities }
      match translateChunkE tr cb chunk2 palette full_translate with
      | Except.error _ => Except.error (TError.translatorFailed, chunk2)
      | Except.ok r => Except.ok r

/-- The block-entity rename loop of `from_universal` (source lines
268-272), guarded like the source by the forward table being present: a
BlockEntity whose full namespaced name is a key of the inverse rename table
has its namespaced name replaced by the table's value.  Modelled from the
spec: renaming is reversed using the inverse table, keyed by the full
namespaced name. -/
def renameBlockEntitiesInverse
    (m : Option (List (String × (Option String × String))))
    (inv : List ((Option String × String) × (Option String × String)))
    (bes : List BlockEntity) : List BlockEntity :=
  match m with
  | none => bes
  | some _ => bes.map (fun be =>
      match inv.lookup (be.ens, be.base_name) with
      | some nn => { be with ens := nn.1, base_name := nn.2 }
      | none => be)

/-- `Translator.from_universal` (source lines 202-273) with its fatal error
paths, under Python's in-place mutation semantics: an `error` outcome
carries the chunk state the caller is left holding at the raise.  The
sequencing follows the source: the version-profile lookup first (line 222,
a missing profile raises before anything is touched), then `_translate`
with the per-value translator, and only after it succeeds `_pack_palette`
(the identity, source line 300), the biome translation and the inverse
block-entity renames — so a translator failure leaves the chunk exactly as
the caller passed it in. -/
def from_universalE (version : Option VersionProfile) (tr : TranslateFnE WVal)
    (cb : Option (ChunkCallback WVal)) (chunk : Chunk WVal)
    (palette : List WVal) (full_translate : Bool) :
    Except (TError × Chunk WVal) (Chunk WVal × List WVal) :=
  match version with
  | none => Except.error (TError.missingVersion, chunk)
  | some v =>
      match translateChunkE tr cb chunk palette full_translate with
      | Except.error _ => Except.error (TError.translatorFailed, chunk)
      | Except.ok r =>
          let chunk1 : Chunk WVal :=
            { r.1 with biomes := biomes_from_universal v.biome_from_universal r.1.biomes }
          let bes := renameBlockEntitiesInverse v.block_entity_map
            v.block_entity_map_inverse chunk1.block_entities
          let chunk2 : Chunk WVal := { chunk1 with block_entities := bes }
          Except.ok (chunk2, r.2)

/-! Lemmas about the finalization writes and substitutions. -/

/-- The last index written for voxel `p` by a write list, threaded from an
initial answer `o`. -/
def lastWriteGo (p : Pos) (ws : List (Pos × Nat)) (o : Option Nat) : Option Nat :=
  ws.foldl (fun acc w => if w.1 = p then some w.2 else acc) o

/-! Pass-1 characterizations. -/

/-- The deferral condition of source line 79: the Pass-1 translation is
context-dependent and a resolver is available. -/
def deferP {V : Type} (tr : TranslateFn V) (hasCb : Bool) (iv : Nat × V) :
    Bool :=
  (tr iv.2 none).extra && hasCb

/-- The Pass-1 fold invariant after the first `t` palette entries: every
recorded new index is at most its old index (new indices are handed out by
`get_add_block` no faster than entries are processed), old indices are
strictly increasing and below `t`, and the output palette is no longer than
the mapping. -/
def pass1Bounds {V : Type} (s : Pass1State V) (t : Nat) : Prop :=
  (∀ m ∈ s.mappings, m.2 ≤ m.1 ∧ m.1 < t)
  ∧ s.finished.blocks.length ≤ s.mappings.length
  ∧ s.mappings.length ≤ t
  ∧ s.mappings.Pairwise (fun u w => u.1 < w.1)

/-- The Pass-2 registration invariant: every per-voxel mapping entry points
at the slot of the output palette holding that voxel's own re-translation
result. -/
def pass2Inv {V : Type} [DecidableEq V] [Inhabited V] (tr : TranslateFn V)
    (cb : Option (ChunkCallback V)) (chunk : Chunk V) (palette : List V)
    (s : Pass2State V) : Prop :=
  ∀ m ∈ s.bmap, s.finished.blocks.get? m.2 =
    some (pass2TResult tr cb chunk palette m.1).block

/-- The Pass-1 state (`todo`, `output_block_entities`, `finished`,
`palette_mappings`) produced by a full translation call. -/
def pass1Of {V : Type} [DecidableEq V] (tr : TranslateFn V)
    (cb : Option (ChunkCallback V)) (chunk : Chunk V) (palette : List V) :
    Pass1State V :=
  pass1 tr cb.isSome chunk palette

/-- The Pass-2 state (`output_block_entities`, `finished`,
`block_mappings`) produced by a full translation call. -/
def pass2Of {V : Type} [DecidableEq V] [Inhabited V] (tr : TranslateFn V)
    (cb : Option (ChunkCallback V)) (chunk : Chunk V) (palette : List V) :
    Pass2State V :=
  pass2Go tr cb chunk palette (pass1Of tr cb chunk palette).todo
    ⟨(pass1Of tr cb chunk palette).obes,
      (pass1Of tr cb chunk palette).finished, []⟩

/-- The Pass-1 registration invariant: every bulk mapping entry points at
the slot of the output palette holding the Pass-1 translation of the
palette entry with that old index. -/
def pass1J {V : Type} [DecidableEq V] [Inhabited V] (tr : TranslateFn V)
    (palette : List V) (s : Pass1State V) : Prop :=
  ∀ m ∈ s.mappings, s.finished.blocks.get? m.2 =
    some ((tr (palette.getD m.1 default) none).block)

/-- A concrete three-voxel chunk: voxels (0,0,0) and (1,0,0) hold palette
index 0, voxel (2,0,0) holds index 1. -/
def exChunk : Chunk Nat :=
  ⟨0, 0, ⟨[(0, 0, 0), (1, 0, 0), (2, 0, 0)],
    fun p => if p = (2, 0, 0) then 1 else 0⟩, [], []⟩

/-- A concrete translator: the context-free translation adds 100 and flags
the value 5 as context-dependent; the context-sensitive re-translation
returns ten times the neighbor value one step in positive x. -/
def exTr : TranslateFn Nat :=
  fun v g =>
    match g with
    | none => ⟨v + 100, none, [], v == 5⟩
    | some gb => ⟨(match gb (1, 0, 0) with
        | some (w, _) => w * 10
        | none => 999), none, [], false⟩

/-- A concrete neighbor resolver (the witness lookups stay in-chunk, so it
is never consulted). -/
def exCb : ChunkCallback Nat := fun _ _ => (exChunk, [5, 7])

/-- A translator producing, for every palette entry, a block and a
BlockEntity at the origin. -/
def beTr : TranslateFn Nat :=
  fun v _ => ⟨v + 100, some ⟨none, "be", 0, 0, 0⟩, [], false⟩

/-- The failing input of C3: a chunk whose voxels (0,0,0) and (1,0,0) both
hold palette index 0. -/
def beChunk : Chunk Nat :=
  ⟨0, 0, ⟨[(0, 0, 0), (1, 0, 0)], fun _ => 0⟩, [], []⟩

/-- The version profile of C9's counterexample: the biome translator maps
1 to 10; there is no block-entity rename table. -/
def w9prof : VersionProfile :=
  ⟨fun v => if v = 1 then 10 else v, fun v => v, none, []⟩

/-- A per-value translator that always raises. -/
def w9tr : TranslateFnE WVal := fun _ _ => Except.error ()

/-- The input chunk of C9's counterexample: one voxel, biome array [1]. -/
def w9chunk : Chunk WVal := ⟨0, 0, ⟨[(0, 0, 0)], fun _ => 0⟩, [1], []⟩

/-- A trivial concrete single-value translator. -/
def wSubT : SubTranslator := fun _ _ => (TransObj.null, none, false)

/-- A one-voxel concrete chunk over wrapper palette values. -/
def wChunk : Chunk WVal := ⟨0, 0, ⟨[(0, 0, 0)], fun _ => 0⟩, [], []⟩

/-! Composite folding: the spec's description of §4.2 as a second,
independent definition, to be compared with the embedded closure. -/

/-- The per-sub-block translator outputs over a sub-block chain, in order:
one invocation per sub-block. -/
def subOutputs (t : SubTranslator) (gbc : Option (GetBlockFn WVal))
    (chain : List BlockBase) : List (TransObj × Option BlockEntity × Bool) :=
  chain.map (fun sb => t sb gbc)

/-- The translated Block outputs, in order. -/
def blocksOf (outs : List (TransObj × Option BlockEntity × Bool)) :
    List Block :=
  outs.filterMap (fun o => match o.1 with
    | TransObj.blk ob => some ob
    | _ => none)

/-- The translated Entity outputs, in order. -/
def entsOf (outs : List (TransObj × Option BlockEntity × Bool)) :
    List Entity :=
  outs.filterMap (fun o => match o.1 with
    | TransObj.ent e => some e
    | _ => none)

/-- Whether any sub-block reported context dependence. -/
def anyExtra (outs : List (TransObj × Option BlockEntity × Bool)) : Bool :=
  outs.any (fun o => o.2.2)

/-- The first non-null translated Block becomes the accumulator; each later
translated Block is layered onto it via `+`. -/
def combineBlocks : Option Block → List Block → Option Block
  | none, [] => none
  | none, b0 :: rest => some (rest.foldl Block.add b0)
  | some a, bs => some (bs.foldl Block.add a)

/-- Specification of composite folding, written from the spec's words:
translator outputs are the map over the base::extras chain; the translated
Blocks fold with `+` from the first non-null one; only the depth-zero
sub-block's translation (and only if it produced a Block) supplies the
BlockEntity; translated Entities are collected in order; the flag is the OR
across all sub-blocks. -/
def specCompositeFold (t : SubTranslator) (b : Block)
    (gbc : Option (GetBlockFn WVal)) : TResult WVal :=
  let outs := subOutputs t gbc (b.base_block :: b.extra_blocks)
  ⟨match combineBlocks none (blocksOf outs) with
    | none => WVal.null
    | some fb => WVal.blk fb,
    match outs with
    | [] => none
    | o0 :: _ => match o0.1 with
      | TransObj.blk _ => o0.2.1
      | _ => none,
    entsOf outs,
    anyExtra outs⟩

/-- The base sub-block `A` of C6's concrete example. -/
def exA : BlockBase := ⟨"minecraft", "stone", []⟩

/-- The extra sub-block `B` of C6's concrete example. -/
def exB : BlockBase := ⟨"minecraft", "grass", []⟩

/-- The translation of `A`. -/
def exAU : BlockBase := ⟨"universal_minecraft", "stone", []⟩

/-- The translation of `B`. -/
def exBU : BlockBase := ⟨"universal_minecraft", "grass", []⟩

/-- The BlockEntity produced only by `A`'s translation. -/
def exBe : BlockEntity := ⟨some "universal_minecraft", "chest", 0, 0, 0⟩

/-- A concrete single-value translator: `A` to `A'` with a BlockEntity,
everything else to `B'` with a different BlockEntity. -/
def exSubT : SubTranslator := fun sb _ =>
  if sb = exA then (TransObj.blk ⟨exAU, []⟩, some exBe, false)
  else (TransObj.blk ⟨exBU, []⟩, some ⟨none, "ignored", 0, 0, 0⟩, false)

/-- A concrete resolver whose every chunk stores index 0 and whose palette
is [8]. -/
def c5cb : ChunkCallback Nat :=
  fun cx _ => (⟨cx, 0, ⟨[], fun _ => 0⟩, [], []⟩, [8])

/-- A concrete one-voxel chunk with palette index 0 everywhere. -/
def c5chunk : Chunk Nat := ⟨0, 0, ⟨[(1, 0, 0)], fun _ => 0⟩, [], []⟩

/-! Lemmas about the palette `BlockManager`. -/

theorem idxOf?_get {V : Type} [DecidableEq V] {l : List V} {v : V} {i : Nat}
    (h : idxOf? l v = some i) : l.get? i = some v := by
  induction l generalizing i with
  | nil => simp [idxOf?] at h
  | cons w ws ih =>
    by_cases hw : w = v
    · simp only [idxOf?, if_pos hw] at h
      cases h
      simpa using hw
    · simp only [idxOf?, if_neg hw, Option.map_eq_some'] at h
      obtain ⟨j, hj, rfl⟩ := h
      simpa using ih hj

theorem idxOf?_isSome_of_mem {V : Type} [DecidableEq V] {l : List V} {v : V}
    (h : v ∈ l) : (idxOf? l v).isSome := by
  induction l with
  | nil => simp at h
  | cons w ws ih =>
    by_cases hw : w = v
    · simp [idxOf?, hw]
    · rcases List.mem_cons.mp h with h' | h'
      · exact absurd h'.symm hw
      · simp only [idxOf?, if_neg hw]
        cases hi : idxOf? ws v with
        | none => rw [hi] at ih; simpa using ih h'
        | some j => simp

theorem not_mem_of_idxOf?_eq_none {V : Type} [DecidableEq V] {l : List V}
    {v : V} (h : idxOf? l v = none) : v ∉ l := by
  intro hm
  have := idxOf?_isSome_of_mem hm
  rw [h] at this
  simp at this

theorem get_add_block_le {V : Type} [DecidableEq V] (m : BlockManager V)
    (v : V) : (m.get_add_block v).2 ≤ m.blocks.length := by
  unfold BlockManager.get_add_block
  cases h : idxOf? m.blocks v with
  | none => simp
  | some i =>
    have := idxOf?_get h
    have := List.get?_eq_some.mp this
    exact le_of_lt this.1

theorem get_add_block_get {V : Type} [DecidableEq V] (m : BlockManager V)
    (v : V) : (m.get_add_block v).1.blocks.get? (m.get_add_block v).2 = some v := by
  unfold BlockManager.get_add_block
  cases h : idxOf? m.blocks v with
  | none =>
    simp only
    rw [List.get?_append_right (le_refl _)]
    simp
  | some i => simpa using idxOf?_get h

theorem get_add_block_preserve {V : Type} [DecidableEq V]
    (m : BlockManager V) (v : V) {j : Nat} {w : V}
    (h : m.blocks.get? j = some w) :
    (m.get_add_block v).1.blocks.get? j = some w := by
  unfold BlockManager.get_add_block
  cases hh : idxOf? m.blocks v with
  | none =>
    simp only
    rw [List.get?_append (List.get?_eq_some.mp h).1]
    exact h
  | some i => exact h

theorem get_add_block_nodup {V : Type} [DecidableEq V] (m : BlockManager V)
    (v : V) (h : m.blocks.Nodup) : (m.get_add_block v).1.blocks.Nodup := by
  unfold BlockManager.get_add_block
  cases hh : idxOf? m.blocks v with
  | none =>
    simp only
    rw [List.nodup_append]
    exact ⟨h, List.nodup_singleton v,
      by simpa using fun hv => not_mem_of_idxOf?_eq_none hh hv⟩
  | some i => exact h

theorem lastWriteGo_init (p : Pos) (ws : List (Pos × Nat)) (o : Option Nat) :
    lastWriteGo p ws o = match lastWriteGo p ws none with
      | some n => some n
      | none => o := by
  induction ws generalizing o with
  | nil => simp [lastWriteGo]
  | cons w ws ih =>
    have hcons : ∀ o', lastWriteGo p (w :: ws) o' =
        lastWriteGo p ws (if w.1 = p then some w.2 else o') := fun _ => rfl
    rw [hcons, hcons, ih, ih (if w.1 = p then some w.2 else none)]
    cases hg : lastWriteGo p ws none with
    | some n => simp
    | none =>
      by_cases hw : w.1 = p <;> simp [hw]

theorem lastWriteGo_not_mem {p : Pos} {ws : List (Pos × Nat)}
    (h : p ∉ ws.map Prod.fst) (o : Option Nat) : lastWriteGo p ws o = o := by
  induction ws generalizing o with
  | nil => rfl
  | cons w ws ih =>
    simp only [List.map_cons, List.mem_cons] at h
    push_neg at h
    have : lastWriteGo p (w :: ws) o =
        lastWriteGo p ws (if w.1 = p then some w.2 else o) := rfl
    rw [this, if_neg (fun hh => h.1 hh.symm)]
    exact ih h.2 o

theorem lastWriteGo_mem {p : Pos} {ws : List (Pos × Nat)} {n : Nat}
    (o : Option Nat) (h : lastWriteGo p ws o = some n) :
    (p, n) ∈ ws ∨ o = some n := by
  induction ws generalizing o with
  | nil => exact Or.inr h
  | cons w ws ih =>
    have hc : lastWriteGo p (w :: ws) o =
        lastWriteGo p ws (if w.1 = p then some w.2 else o) := rfl
    rw [hc] at h
    rcases ih _ h with hm | ho
    · exact Or.inl (List.mem_cons_of_mem _ hm)
    · by_cases hw : w.1 = p
      · rw [if_pos hw] at ho
        cases ho
        exact Or.inl (by rw [← hw]; exact List.mem_cons_self _ _)
      · rw [if_neg hw] at ho
        exact Or.inr ho

theorem lastWriteGo_isSome {p : Pos} {ws : List (Pos × Nat)}
    (h : p ∈ ws.map Prod.fst) (o : Option Nat) :
    (lastWriteGo p ws o).isSome := by
  induction ws generalizing o with
  | nil => simp at h
  | cons w ws ih =>
    have hc : lastWriteGo p (w :: ws) o =
        lastWriteGo p ws (if w.1 = p then some w.2 else o) := rfl
    rw [hc]
    by_cases hmem : p ∈ ws.map Prod.fst
    · exact ih hmem _
    · have hw : w.1 = p := by
        simp only [List.map_cons, List.mem_cons] at h
        rcases h with h | h
        · exact h.symm
        · exact absurd h hmem
      rw [lastWriteGo_not_mem hmem, if_pos hw]
      rfl

theorem applyWrites_val (a : VoxelArray) (ws : List (Pos × Nat)) (p : Pos) :
    (applyWrites a ws).val p = (lastWriteGo p ws none).getD (a.val p) := by
  induction ws generalizing a with
  | nil => rfl
  | cons w ws ih =>
    have h1 : applyWrites a (w :: ws) = applyWrites (a.write w.1 w.2) ws := rfl
    have h2 : lastWriteGo p (w :: ws) none =
        lastWriteGo p ws (if w.1 = p then some w.2 else none) := rfl
    rw [h1, ih, h2, lastWriteGo_init p ws (if w.1 = p then some w.2 else none)]
    cases hg : lastWriteGo p ws none with
    | some n => simp
    | none =>
      by_cases hw : w.1 = p
      · simp [hw, VoxelArray.write]
      · simp only [if_neg hw, Option.getD_none]
        simp only [VoxelArray.write]
        rw [if_neg (fun hh : p = w.1 => hw hh.symm)]

theorem applySubsts_val_of_ne (a : VoxelArray) (ms : List (Nat × Nat))
    (p : Pos) (h : ∀ m ∈ ms, m.1 ≠ a.val p) :
    (applySubsts a ms).val p = a.val p := by
  induction ms generalizing a with
  | nil => rfl
  | cons m ms ih =>
    have h1 : applySubsts a (m :: ms) = applySubsts (a.subst m.1 m.2) ms := rfl
    rw [h1]
    have hv : (a.subst m.1 m.2).val p = a.val p := by
      simp only [VoxelArray.subst]
      rw [if_neg (fun hh => h m (List.mem_cons_self _ _) hh.symm)]
    rw [ih _ (by rw [hv]; exact fun x hx => h x (List.mem_cons_of_mem _ hx))]
    exact hv

theorem applySubsts_val_eq (a : VoxelArray) (ms : List (Nat × Nat))
    (p : Pos) {k n : Nat}
    (hpair : ms.Pairwise (fun u w => u.1 < w.1))
    (hle : ∀ m ∈ ms, m.2 ≤ m.1)
    (hmem : (k, n) ∈ ms) (hval : a.val p = k) :
    (applySubsts a ms).val p = n := by
  induction ms generalizing a with
  | nil => simp at hmem
  | cons m ms ih =>
    have h1 : applySubsts a (m :: ms) = applySubsts (a.subst m.1 m.2) ms := rfl
    rw [h1]
    rcases List.mem_cons.mp hmem with hm | hm
    · cases hm
      have hv : (a.subst k n).val p = n := by
        simp [VoxelArray.subst, hval]
      rw [applySubsts_val_of_ne _ _ _ ?_, hv]
      intro u hu
      rw [hv]
      have hk : k < u.1 := (List.pairwise_cons.mp hpair).1 u hu
      have hn : n ≤ k := hle (k, n) (List.mem_cons_self _ _)
      omega
    · have hkm : m.1 < k :=
        (List.pairwise_cons.mp hpair).1 (k, n) hm
      have hv : (a.subst m.1 m.2).val p = k := by
        simp only [VoxelArray.subst, hval]
        rw [if_neg (by omega)]
      exact ih _ ((List.pairwise_cons.mp hpair).2)
        (fun x hx => hle x (List.mem_cons_of_mem _ hx)) hm hv

/-! Generic fold-invariant helper. -/

theorem foldl_inv {α : Type _} {β : Type _} (f : α → β → α) (P : α → Prop)
    (h : ∀ a b, P a → P (f a b)) :
    ∀ (l : List β) (a : α), P a → P (l.foldl f a) := by
  intro l
  induction l with
  | nil => intro a ha; exact ha
  | cons b bs ih => intro a ha; exact ih _ (h a b ha)

/-! Component lemmas for the Pass-1 and Pass-2 steps. -/

theorem pass1Apply_todo {V : Type} [DecidableEq V] (hasCb : Bool)
    (chunk : Chunk V) (s : Pass1State V) (i : Nat) (r : TResult V) :
    (pass1Apply hasCb chunk s i r).todo =
      if r.extra && hasCb then s.todo ++ [i] else s.todo := by
  unfold pass1Apply
  by_cases h : (r.extra && hasCb) = true
  · rw [if_pos h, if_pos h]
  · rw [if_neg h, if_neg h]
    cases hbe : r.block_entity <;> simp only [hbe]

theorem pass1Apply_mappings {V : Type} [DecidableEq V] (hasCb : Bool)
    (chunk : Chunk V) (s : Pass1State V) (i : Nat) (r : TResult V) :
    (pass1Apply hasCb chunk s i r).mappings =
      if r.extra && hasCb then s.mappings
      else s.mappings ++ [(i, (s.finished.get_add_block r.block).2)] := by
  unfold pass1Apply
  by_cases h : (r.extra && hasCb) = true
  · rw [if_pos h, if_pos h]
  · rw [if_neg h, if_neg h]
    cases hbe : r.block_entity <;> simp only [hbe]

theorem pass1Apply_finished {V : Type} [DecidableEq V] (hasCb : Bool)
    (chunk : Chunk V) (s : Pass1State V) (i : Nat) (r : TResult V) :
    (pass1Apply hasCb chunk s i r).finished =
      if r.extra && hasCb then s.finished
      else (s.finished.get_add_block r.block).1 := by
  unfold pass1Apply
  by_cases h : (r.extra && hasCb) = true
  · rw [if_pos h, if_pos h]
  · rw [if_neg h, if_neg h]
    cases hbe : r.block_entity <;> simp only [hbe]

theorem pass2Apply_bmap {V : Type} [DecidableEq V] (chunk : Chunk V)
    (s : Pass2State V) (p : Pos) (r : TResult V) :
    (pass2Apply chunk s p r).bmap =
      s.bmap ++ [(p, (s.finished.get_add_block r.block).2)] := by
  unfold pass2Apply
  cases r.block_entity <;> rfl

theorem pass2Apply_finished {V : Type} [DecidableEq V] (chunk : Chunk V)
    (s : Pass2State V) (p : Pos) (r : TResult V) :
    (pass2Apply chunk s p r).finished =
      (s.finished.get_add_block r.block).1 := by
  unfold pass2Apply
  cases r.block_entity <;> rfl

theorem pass1Go_todo {V : Type} [DecidableEq V] (tr : TranslateFn V)
    (hasCb : Bool) (chunk : Chunk V) (l : List (Nat × V)) (s : Pass1State V) :
    (pass1Go tr hasCb chunk l s).todo =
      s.todo ++ (l.filter (deferP tr hasCb)).map Prod.fst := by
  induction l generalizing s with
  | nil => simp [pass1Go]
  | cons iv l ih =>
    have hstep : pass1Go tr hasCb chunk (iv :: l) s =
        pass1Go tr hasCb chunk l (pass1Step tr hasCb chunk s iv) := rfl
    rw [hstep, ih]
    by_cases h : deferP tr hasCb iv = true
    · rw [List.filter_cons_of_pos h]
      simp only [pass1Step, pass1Apply_todo, deferP] at *
      rw [if_pos h]
      simp
    · rw [List.filter_cons_of_neg (by simpa using h)]
      simp only [pass1Step, pass1Apply_todo, deferP] at *
      rw [if_neg h]

theorem pass1Go_mappings_keys {V : Type} [DecidableEq V] (tr : TranslateFn V)
    (hasCb : Bool) (chunk : Chunk V) (l : List (Nat × V)) (s : Pass1State V) :
    (pass1Go tr hasCb chunk l s).mappings.map Prod.fst =
      s.mappings.map Prod.fst ++
        (l.filter (fun iv => !deferP tr hasCb iv)).map Prod.fst := by
  induction l generalizing s with
  | nil => simp [pass1Go]
  | cons iv l ih =>
    have hstep : pass1Go tr hasCb chunk (iv :: l) s =
        pass1Go tr hasCb chunk l (pass1Step tr hasCb chunk s iv) := rfl
    rw [hstep, ih]
    by_cases h : deferP tr hasCb iv = true
    · rw [List.filter_cons_of_neg (by simpa using h)]
      simp only [pass1Step, pass1Apply_mappings, deferP] at *
      rw [if_pos h]
    · rw [List.filter_cons_of_pos (by simpa using h)]
      simp only [pass1Step, pass1Apply_mappings, deferP] at *
      rw [if_neg h]
      simp

theorem get_add_block_length_le {V : Type} [DecidableEq V]
    (m : BlockManager V) (v : V) :
    (m.get_add_block v).1.blocks.length ≤ m.blocks.length + 1 := by
  unfold BlockManager.get_add_block
  cases h : idxOf? m.blocks v with
  | none => simp
  | some i => simp

theorem pass1Step_bounds {V : Type} [DecidableEq V] (tr : TranslateFn V)
    (hasCb : Bool) (chunk : Chunk V) (s : Pass1State V) (t : Nat) (v : V)
    (h : pass1Bounds s t) :
    pass1Bounds (pass1Step tr hasCb chunk s (t, v)) (t + 1) := by
  obtain ⟨hmem, hlen, hcnt, hpair⟩ := h
  have hm := pass1Apply_mappings hasCb chunk s t (tr v none)
  have hf := pass1Apply_finished hasCb chunk s t (tr v none)
  unfold pass1Step
  by_cases hd : ((tr v none).extra && hasCb) = true
  · rw [if_pos hd] at hm hf
    refine ⟨fun m hmm => ?_, ?_, ?_, ?_⟩
    · rw [hm] at hmm
      exact ⟨(hmem m hmm).1, Nat.lt_succ_of_lt (hmem m hmm).2⟩
    · rw [hm, hf]; exact hlen
    · rw [hm]; exact Nat.le_succ_of_le hcnt
    · rw [hm]; exact hpair
  · rw [if_neg hd] at hm hf
    have hnew : (s.finished.get_add_block (tr v none).block).2 ≤ t :=
      le_trans (get_add_block_le _ _) (le_trans hlen hcnt)
    refine ⟨fun m hmm => ?_, ?_, ?_, ?_⟩
    · rw [hm] at hmm
      rcases List.mem_append.mp hmm with h' | h'
      · exact ⟨(hmem m h').1, Nat.lt_succ_of_lt (hmem m h').2⟩
      · rcases List.mem_singleton.mp h' with rfl
        exact ⟨hnew, Nat.lt_succ_self t⟩
    · rw [hm, hf]
      have h1 : (s.finished.get_add_block (tr v none).block).1.blocks.length
          ≤ s.finished.blocks.length + 1 := get_add_block_length_le _ _
      have h2 : (s.mappings ++
          [(t, (s.finished.get_add_block (tr v none).block).2)]).length
          = s.mappings.length + 1 := by simp
      omega
    · rw [hm]; simpa using Nat.succ_le_succ hcnt
    · rw [hm]
      refine List.pairwise_append.mpr ⟨hpair, List.pairwise_singleton _ _, ?_⟩
      intro u hu w hw
      rcases List.mem_singleton.mp hw with rfl
      exact (hmem u hu).2

theorem pass1Go_bounds {V : Type} [DecidableEq V] (tr : TranslateFn V)
    (hasCb : Bool) (chunk : Chunk V) :
    ∀ (l : List V) (t : Nat) (s : Pass1State V), pass1Bounds s t →
      pass1Bounds (pass1Go tr hasCb chunk (List.enumFrom t l) s)
        (t + l.length) := by
  intro l
  induction l with
  | nil => intro t s h; simpa using h
  | cons v vs ih =>
    intro t s h
    have hstep : pass1Go tr hasCb chunk (List.enumFrom t (v :: vs)) s =
        pass1Go tr hasCb chunk (List.enumFrom (t + 1) vs)
          (pass1Step tr hasCb chunk s (t, v)) := rfl
    rw [hstep]
    have := ih (t + 1) _ (pass1Step_bounds tr hasCb chunk s t v h)
    simpa [Nat.add_comm, Nat.add_assoc, Nat.add_left_comm] using this

theorem pass1_bounds {V : Type} [DecidableEq V] (tr : TranslateFn V)
    (hasCb : Bool) (chunk : Chunk V) (palette : List V) :
    pass1Bounds (pass1 tr hasCb chunk palette) palette.length := by
  have h0 : pass1Bounds (⟨[], [], ⟨[]⟩, []⟩ : Pass1State V) 0 := by
    refine ⟨by simp, by simp, by simp, List.Pairwise.nil⟩
  have := pass1Go_bounds tr hasCb chunk palette 0 _ h0
  simpa [pass1, List.enum] using this

/-! Pass-2 characterizations. -/

theorem pass2Voxel_bmap_keys {V : Type} [DecidableEq V] [Inhabited V]
    (tr : TranslateFn V) (cb : Option (ChunkCallback V)) (chunk : Chunk V)
    (palette : List V) (s : Pass2State V) (p : Pos) :
    (pass2Voxel tr cb chunk palette s p).bmap.map Prod.fst =
      s.bmap.map Prod.fst ++ [p] := by
  unfold pass2Voxel
  rw [pass2Apply_bmap]
  simp

theorem pass2Foldl_bmap_keys {V : Type} [DecidableEq V] [Inhabited V]
    (tr : TranslateFn V) (cb : Option (ChunkCallback V)) (chunk : Chunk V)
    (palette : List V) (l : List Pos) :
    ∀ s : Pass2State V,
      ((l.foldl (pass2Voxel tr cb chunk palette) s).bmap).map Prod.fst =
        s.bmap.map Prod.fst ++ l := by
  induction l with
  | nil => intro s; simp
  | cons p l ih =>
    intro s
    have hstep : (p :: l).foldl (pass2Voxel tr cb chunk palette) s =
        l.foldl (pass2Voxel tr cb chunk palette)
          (pass2Voxel tr cb chunk palette s p) := rfl
    rw [hstep, ih, pass2Voxel_bmap_keys]
    simp

theorem pass2Go_bmap_keys {V : Type} [DecidableEq V] [Inhabited V]
    (tr : TranslateFn V) (cb : Option (ChunkCallback V)) (chunk : Chunk V)
    (palette : List V) (todo : List Nat) :
    ∀ s : Pass2State V,
      (pass2Go tr cb chunk palette todo s).bmap.map Prod.fst =
        s.bmap.map Prod.fst ++ (todo.map (fun i => chunk.blocks.locs i)).join := by
  induction todo with
  | nil => intro s; simp [pass2Go]
  | cons i todo ih =>
    intro s
    have hstep : pass2Go tr cb chunk palette (i :: todo) s =
        pass2Go tr cb chunk palette todo
          (pass2Index tr cb chunk palette s i) := rfl
    rw [hstep, ih]
    have : (pass2Index tr cb chunk palette s i).bmap.map Prod.fst =
        s.bmap.map Prod.fst ++ chunk.blocks.locs i :=
      pass2Foldl_bmap_keys tr cb chunk palette _ s
    rw [this]
    simp

theorem pass2Voxel_inv {V : Type} [DecidableEq V] [Inhabited V]
    (tr : TranslateFn V) (cb : Option (ChunkCallback V)) (chunk : Chunk V)
    (palette : List V) (s : Pass2State V) (p : Pos)
    (h : pass2Inv tr cb chunk palette s) :
    pass2Inv tr cb chunk palette (pass2Voxel tr cb chunk palette s p) := by
  intro m hm
  unfold pass2Voxel at hm ⊢
  rw [pass2Apply_bmap] at hm
  rw [pass2Apply_finished]
  rcases List.mem_append.mp hm with h' | h'
  · exact get_add_block_preserve _ _ (h m h')
  · rcases List.mem_singleton.mp h' with rfl
    exact get_add_block_get _ _

theorem pass2Go_inv {V : Type} [DecidableEq V] [Inhabited V]
    (tr : TranslateFn V) (cb : Option (ChunkCallback V)) (chunk : Chunk V)
    (palette : List V) (todo : List Nat) (s : Pass2State V)
    (h : pass2Inv tr cb chunk palette s) :
    pass2Inv tr cb chunk palette (pass2Go tr cb chunk palette todo s) := by
  refine foldl_inv _ _ ?_ todo s h
  intro a i ha
  exact foldl_inv _ _ (fun a' p ha' => pass2Voxel_inv tr cb chunk palette a' p ha')
    (chunk.blocks.locs i) a ha

/-- Any established output-palette slot survives the rest of Pass 2. -/
theorem pass2Go_finished_preserve {V : Type} [DecidableEq V] [Inhabited V]
    (tr : TranslateFn V) (cb : Option (ChunkCallback V)) (chunk : Chunk V)
    (palette : List V) (todo : List Nat) (s : Pass2State V) {j : Nat} {w : V}
    (h : s.finished.blocks.get? j = some w) :
    (pass2Go tr cb chunk palette todo s).finished.blocks.get? j = some w := by
  refine foldl_inv _ (fun a => a.finished.blocks.get? j = some w) ?_ todo s h
  intro a i ha
  refine foldl_inv _ (fun a' => a'.finished.blocks.get? j = some w) ?_
    (chunk.blocks.locs i) a ha
  intro a' p ha'
  unfold pass2Voxel
  rw [pass2Apply_finished]
  exact get_add_block_preserve _ _ ha'

theorem mem_locs_iff (a : VoxelArray) (i : Nat) (p : Pos) :
    p ∈ a.locs i ↔ p ∈ a.dom ∧ a.val p = i := by
  unfold VoxelArray.locs
  rw [List.mem_filter]
  simp

theorem mem_enum_iff {V : Type} (palette : List V) (i : Nat) (v : V) :
    (i, v) ∈ palette.enum ↔ palette.get? i = some v := by
  rw [List.mk_mem_enum_iff_getElem?, List.get?_eq_getElem?]

theorem pass1_todo_mem_iff {V : Type} [DecidableEq V] (tr : TranslateFn V)
    (hasCb : Bool) (chunk : Chunk V) (palette : List V) (i : Nat) :
    i ∈ (pass1 tr hasCb chunk palette).todo ↔
      ∃ v, palette.get? i = some v ∧ deferP tr hasCb (i, v) = true := by
  unfold pass1
  rw [pass1Go_todo]
  simp only [List.nil_append]
  constructor
  · intro h
    obtain ⟨iv, hiv, hfst⟩ := List.mem_map.mp h
    have hf := List.mem_filter.mp hiv
    refine ⟨iv.2, ?_, ?_⟩
    · rw [← (mem_enum_iff palette iv.1 iv.2).mp hf.1, hfst]
    · rw [← hfst]
      exact hf.2
  · rintro ⟨v, hget, hd⟩
    exact List.mem_map_of_mem _
      (List.mem_filter.mpr ⟨(mem_enum_iff palette i v).mpr hget, hd⟩)

theorem pass1_mappings_mem {V : Type} [DecidableEq V] (tr : TranslateFn V)
    (hasCb : Bool) (chunk : Chunk V) (palette : List V) {i : Nat} {v : V}
    (hget : palette.get? i = some v) (hnd : deferP tr hasCb (i, v) = false) :
    ∃ n, (i, n) ∈ (pass1 tr hasCb chunk palette).mappings := by
  have hmem : i ∈ (pass1 tr hasCb chunk palette).mappings.map Prod.fst := by
    unfold pass1
    rw [pass1Go_mappings_keys]
    simp only [List.map_nil, List.nil_append]
    exact List.mem_map_of_mem _
      (List.mem_filter.mpr ⟨(mem_enum_iff palette i v).mpr hget, by simp [hnd]⟩)
  obtain ⟨m, hm, hfst⟩ := List.mem_map.mp hmem
  exact ⟨m.2, by rw [show (i, m.2) = m from Prod.ext hfst.symm rfl]; exact hm⟩

theorem translateChunk_eq {V : Type} [DecidableEq V] [Inhabited V]
    (tr : TranslateFn V) (cb : Option (ChunkCallback V)) (chunk : Chunk V)
    (palette : List V) :
    translateChunk tr cb chunk palette true =
      ({ chunk with
          blocks := applyWrites
            (applySubsts chunk.blocks (pass1Of tr cb chunk palette).mappings)
            (pass2Of tr cb chunk palette).bmap,
          block_entities := (pass2Of tr cb chunk palette).obes },
        (pass2Of tr cb chunk palette).finished.blocks) := rfl

/-! Output-palette duplicate-freedom is preserved by both passes. -/

theorem pass1Go_finished_nodup {V : Type} [DecidableEq V]
    (tr : TranslateFn V) (hasCb : Bool) (chunk : Chunk V)
    (l : List (Nat × V)) (s : Pass1State V)
    (h : s.finished.blocks.Nodup) :
    (pass1Go tr hasCb chunk l s).finished.blocks.Nodup := by
  refine foldl_inv _ (fun a => a.finished.blocks.Nodup) ?_ l s h
  intro a iv ha
  unfold pass1Step
  rw [pass1Apply_finished]
  by_cases hd : ((tr iv.2 none).extra && hasCb) = true
  · rw [if_pos hd]; exact ha
  · rw [if_neg hd]; exact get_add_block_nodup _ _ ha

theorem pass2Go_finished_nodup {V : Type} [DecidableEq V] [Inhabited V]
    (tr : TranslateFn V) (cb : Option (ChunkCallback V)) (chunk : Chunk V)
    (palette : List V) (todo : List Nat) (s : Pass2State V)
    (h : s.finished.blocks.Nodup) :
    (pass2Go tr cb chunk palette todo s).finished.blocks.Nodup := by
  refine foldl_inv _ (fun a => a.finished.blocks.Nodup) ?_ todo s h
  intro a i ha
  refine foldl_inv _ (fun a' => a'.finished.blocks.Nodup) ?_
    (chunk.blocks.locs i) a ha
  intro a' p ha'
  unfold pass2Voxel
  rw [pass2Apply_finished]
  exact get_add_block_nodup _ _ ha'

theorem pass1Go_J {V : Type} [DecidableEq V] [Inhabited V]
    (tr : TranslateFn V) (hasCb : Bool) (chunk : Chunk V) (palette : List V)
    (l : List (Nat × V)) (hl : ∀ iv ∈ l, palette.getD iv.1 default = iv.2) :
    ∀ s : Pass1State V, pass1J tr palette s →
      pass1J tr palette (pass1Go tr hasCb chunk l s) := by
  induction l with
  | nil => intro s h; exact h
  | cons iv l ih =>
    intro s h
    have hstep : pass1Go tr hasCb chunk (iv :: l) s =
        pass1Go tr hasCb chunk l (pass1Step tr hasCb chunk s iv) := rfl
    rw [hstep]
    refine ih (fun x hx => hl x (List.mem_cons_of_mem _ hx)) _ ?_
    intro m hm
    unfold pass1Step at hm ⊢
    rw [pass1Apply_mappings] at hm
    rw [pass1Apply_finished]
    by_cases hd : ((tr iv.2 none).extra && hasCb) = true
    · rw [if_pos hd] at hm ⊢
      exact h m hm
    · rw [if_neg hd] at hm ⊢
      rcases List.mem_append.mp hm with h' | h'
      · exact get_add_block_preserve _ _ (h m h')
      · rcases List.mem_singleton.mp h' with rfl
        have := get_add_block_get s.finished (tr iv.2 none).block
        rw [hl iv (List.mem_cons_self _ _)]
        exact this

theorem pass1_J {V : Type} [DecidableEq V] [Inhabited V]
    (tr : TranslateFn V) (hasCb : Bool) (chunk : Chunk V)
    (palette : List V) :
    pass1J tr palette (pass1 tr hasCb chunk palette) := by
  unfold pass1
  refine pass1Go_J tr hasCb chunk palette palette.enum ?_ _ ?_
  · intro iv hiv
    have := (mem_enum_iff palette iv.1 iv.2).mp (by
      rw [show (iv.1, iv.2) = iv from rfl]; exact hiv)
    simp [List.getD_eq_getElem?_getD, ← List.get?_eq_getElem?, this]
  · intro m hm
    simp at hm

/-- Master lemma for deferred voxels: a voxel whose original index was
deferred gets its own entry in `block_mappings`, the finished palette's slot
at that entry holds the voxel's own re-translation result, and finalization
leaves exactly that entry in the voxel. -/
theorem pass2_voxel_final {V : Type} [DecidableEq V] [Inhabited V]
    (tr : TranslateFn V) (cb : Option (ChunkCallback V)) (chunk : Chunk V)
    (palette : List V) (p : Pos)
    (hdom : p ∈ chunk.blocks.dom)
    (hdef : chunk.blocks.val p ∈ (pass1Of tr cb chunk palette).todo) :
    ∃ n, (p, n) ∈ (pass2Of tr cb chunk palette).bmap
      ∧ (translateChunk tr cb chunk palette true).1.blocks.val p = n
      ∧ (pass2Of tr cb chunk palette).finished.blocks.get? n =
          some (pass2TResult tr cb chunk palette p).block := by
  have hkeys : (pass2Of tr cb chunk palette).bmap.map Prod.fst =
      ((pass1Of tr cb chunk palette).todo.map
        (fun i => chunk.blocks.locs i)).join := by
    unfold pass2Of
    rw [pass2Go_bmap_keys]
    simp
  have hploc : p ∈ chunk.blocks.locs (chunk.blocks.val p) :=
    (mem_locs_iff _ _ _).mpr ⟨hdom, rfl⟩
  have hpkeys : p ∈ (pass2Of tr cb chunk palette).bmap.map Prod.fst := by
    rw [hkeys]
    exact List.mem_join.mpr ⟨_, List.mem_map_of_mem _ hdef, hploc⟩
  obtain ⟨n, hn⟩ := Option.isSome_iff_exists.mp
    (lastWriteGo_isSome hpkeys none)
  have hmem : (p, n) ∈ (pass2Of tr cb chunk palette).bmap := by
    rcases lastWriteGo_mem none hn with h | h
    · exact h
    · simp at h
  have hinv : pass2Inv tr cb chunk palette (pass2Of tr cb chunk palette) := by
    unfold pass2Of
    refine pass2Go_inv tr cb chunk palette _ _ ?_
    intro m hm
    simp at hm
  refine ⟨n, hmem, ?_, hinv (p, n) hmem⟩
  rw [translateChunk_eq]
  simp only
  rw [applyWrites_val, hn]
  rfl

/-- C1: Finalization order: for every full translation pass, the Pass-1
bulk old-to-new index substitutions are applied to the chunk's voxel-index
array first, and then each Pass-2 deferred voxel's individually resolved
index is written over it, so a voxel whose original index was deferred to
Pass 2 finally holds its Pass-2 per-voxel index — the `block_mappings`
entry recorded for that very voxel, whose output-palette slot holds the
voxel's own re-translation result — and never a Pass-1 bulk value. -/
theorem claim_finalization_order {V : Type} [DecidableEq V] [Inhabited V]
    (tr : TranslateFn V) (cb : Option (ChunkCallback V)) (chunk : Chunk V)
    (palette : List V) (p : Pos) (v : V)
    (hdom : p ∈ chunk.blocks.dom)
    (hv : palette.get? (chunk.blocks.val p) = some v)
    (hex : (tr v none).extra = true)
    (hcb : cb.isSome = true) :
    ∃ n, (p, n) ∈ (pass2Of tr cb chunk palette).bmap
      ∧ (translateChunk tr cb chunk palette true).1.blocks.val p = n
      ∧ (translateChunk tr cb chunk palette true).2.get? n =
          some (pass2TResult tr cb chunk palette p).block := by
  have hdef : chunk.blocks.val p ∈ (pass1Of tr cb chunk palette).todo :=
    (pass1_todo_mem_iff tr cb.isSome chunk palette _).mpr
      ⟨v, hv, by simp [deferP, hex, hcb]⟩
  obtain ⟨n, h1, h2, h3⟩ :=
    pass2_voxel_final tr cb chunk palette p hdom hdef
  exact ⟨n, h1, h2, by rw [translateChunk_eq]; exact h3⟩

/-- C2: Pass-1 remapping is a simultaneous relabeling: a voxel whose
original palette index was translated in Pass 1 (not deferred) ends up
holding exactly the output-palette index recorded for that old index by
`get_or_add` in `palette_mappings`, even though the substitutions are
applied sequentially — no voxel is remapped twice through a chain. -/
theorem claim_pass1_simultaneous {V : Type} [DecidableEq V] [Inhabited V]
    (tr : TranslateFn V) (cb : Option (ChunkCallback V)) (chunk : Chunk V)
    (palette : List V) (p : Pos) (v : V)
    (hv : palette.get? (chunk.blocks.val p) = some v)
    (hnd : ((tr v none).extra && cb.isSome) = false) :
    ∃ n, (chunk.blocks.val p, n) ∈ (pass1Of tr cb chunk palette).mappings
      ∧ (translateChunk tr cb chunk palette true).1.blocks.val p = n := by
  obtain ⟨n, hn⟩ := pass1_mappings_mem tr cb.isSome chunk palette hv hnd
  refine ⟨n, hn, ?_⟩
  have hnotdef : p ∉ (pass2Of tr cb chunk palette).bmap.map Prod.fst := by
    intro hp
    have hkeys : (pass2Of tr cb chunk palette).bmap.map Prod.fst =
        ((pass1Of tr cb chunk palette).todo.map
          (fun i => chunk.blocks.locs i)).join := by
      unfold pass2Of
      rw [pass2Go_bmap_keys]
      simp
    rw [hkeys] at hp
    obtain ⟨l, hl, hpl⟩ := List.mem_join.mp hp
    obtain ⟨idx, hidx, rfl⟩ := List.mem_map.mp hl
    have hval : chunk.blocks.val p = idx := ((mem_locs_iff _ _ _).mp hpl).2
    rw [← hval] at hidx
    obtain ⟨v', hv', hd'⟩ :=
      (pass1_todo_mem_iff tr cb.isSome chunk palette _).mp hidx
    rw [hv] at hv'
    cases hv'
    rw [deferP] at hd'
    simp only at hd'
    rw [hnd] at hd'
    exact Bool.false_ne_true hd'
  have hbounds := pass1_bounds tr cb.isSome chunk palette
  rw [translateChunk_eq]
  simp only
  rw [applyWrites_val, lastWriteGo_not_mem hnotdef, Option.getD_none]
  exact applySubsts_val_eq chunk.blocks _ p hbounds.2.2.2
    (fun m hm => (hbounds.1 m hm).1) hn rfl

/-- C4: Context-dependent deferral is per-occurrence: two voxels sharing a
deferred original index whose Pass-2 re-translations produce different
output values hold different indices in the returned chunk, and each
Pass-2 result is registered via `get_or_add` into the same output palette
(readable back at the voxel's final index). -/
theorem claim_context_deferral {V : Type} [DecidableEq V] [Inhabited V]
    (tr : TranslateFn V) (cb : Option (ChunkCallback V)) (chunk : Chunk V)
    (palette : List V) (p q : Pos) (v : V)
    (hp : p ∈ chunk.blocks.dom) (hq : q ∈ chunk.blocks.dom)
    (hvq : chunk.blocks.val q = chunk.blocks.val p)
    (hv : palette.get? (chunk.blocks.val p) = some v)
    (hex : (tr v none).extra = true)
    (hcb : cb.isSome = true)
    (hne : (pass2TResult tr cb chunk palette p).block ≠
      (pass2TResult tr cb chunk palette q).block) :
    (translateChunk tr cb chunk palette true).1.blocks.val p ≠
      (translateChunk tr cb chunk palette true).1.blocks.val q
    ∧ (translateChunk tr cb chunk palette true).2.get?
        ((translateChunk tr cb chunk palette true).1.blocks.val p) =
        some (pass2TResult tr cb chunk palette p).block
    ∧ (translateChunk tr cb chunk palette true).2.get?
        ((translateChunk tr cb chunk palette true).1.blocks.val q) =
        some (pass2TResult tr cb chunk palette q).block := by
  have hdefp : chunk.blocks.val p ∈ (pass1Of tr cb chunk palette).todo :=
    (pass1_todo_mem_iff tr cb.isSome chunk palette _).mpr
      ⟨v, hv, by simp [deferP, hex, hcb]⟩
  have hdefq : chunk.blocks.val q ∈ (pass1Of tr cb chunk palette).todo := by
    rw [hvq]; exact hdefp
  obtain ⟨n₁, _, he₁, hg₁⟩ := pass2_voxel_final tr cb chunk palette p hp hdefp
  obtain ⟨n₂, _, he₂, hg₂⟩ := pass2_voxel_final tr cb chunk palette q hq hdefq
  have hpal : (translateChunk tr cb chunk palette true).2 =
      (pass2Of tr cb chunk palette).finished.blocks := by
    rw [translateChunk_eq]
  refine ⟨?_, ?_, ?_⟩
  · rw [he₁, he₂]
    intro hcontra
    apply hne
    rw [hcontra] at hg₁
    rw [hg₁] at hg₂
    exact Option.some_injective _ hg₂
  · rw [hpal, he₁]; exact hg₁
  · rw [hpal, he₂]; exact hg₂

/-- C8: Dedup invariant: in every output palette returned by a full
translation pass, no two distinct indices hold structurally equal values —
every registration from Pass 1 and Pass 2 goes through the same
deduplicating `get_add_block` on a fresh output palette. -/
theorem claim_output_palette_dedup {V : Type} [DecidableEq V] [Inhabited V]
    (tr : TranslateFn V) (cb : Option (ChunkCallback V)) (chunk : Chunk V)
    (palette : List V) :
    (translateChunk tr cb chunk palette true).2.Nodup := by
  rw [translateChunk_eq]
  simp only
  unfold pass2Of
  refine pass2Go_finished_nodup tr cb chunk palette _ _ ?_
  simp only
  unfold pass1Of pass1
  exact pass1Go_finished_nodup tr cb.isSome chunk _ _ (by simp)

/-- Witness for C1: in the concrete chunk, voxel (0,0,0) holds the deferred
index 0, and the theorem applies. -/
theorem claim_finalization_order_witness :
    ∃ n, (((0, 0, 0) : Pos), n) ∈ (pass2Of exTr (some exCb) exChunk [5, 7]).bmap
      ∧ (translateChunk exTr (some exCb) exChunk [5, 7] true).1.blocks.val (0, 0, 0) = n
      ∧ (translateChunk exTr (some exCb) exChunk [5, 7] true).2.get? n =
          some (pass2TResult exTr (some exCb) exChunk [5, 7] (0, 0, 0)).block :=
  claim_finalization_order exTr (some exCb) exChunk [5, 7] (0, 0, 0) 5
    (by decide) (by decide) (by decide) rfl

/-- Witness for C2: in the concrete chunk, voxel (2,0,0) holds the
non-deferred index 1, and the theorem applies. -/
theorem claim_pass1_simultaneous_witness :
    ∃ n, (exChunk.blocks.val (2, 0, 0), n) ∈
        (pass1Of exTr (some exCb) exChunk [5, 7]).mappings
      ∧ (translateChunk exTr (some exCb) exChunk [5, 7] true).1.blocks.val (2, 0, 0) = n :=
  claim_pass1_simultaneous exTr (some exCb) exChunk [5, 7] (2, 0, 0) 7
    (by decide) (by decide)

/-- Witness for C4: voxels (0,0,0) and (1,0,0) share the deferred index 0
but re-translate to 50 and 70 through their different neighbors, and the
theorem applies. -/
theorem claim_context_deferral_witness :
    (translateChunk exTr (some exCb) exChunk [5, 7] true).1.blocks.val (0, 0, 0) ≠
      (translateChunk exTr (some exCb) exChunk [5, 7] true).1.blocks.val (1, 0, 0)
    ∧ (translateChunk exTr (some exCb) exChunk [5, 7] true).2.get?
        ((translateChunk exTr (some exCb) exChunk [5, 7] true).1.blocks.val (0, 0, 0)) =
        some (pass2TResult exTr (some exCb) exChunk [5, 7] (0, 0, 0)).block
    ∧ (translateChunk exTr (some exCb) exChunk [5, 7] true).2.get?
        ((translateChunk exTr (some exCb) exChunk [5, 7] true).1.blocks.val (1, 0, 0)) =
        some (pass2TResult exTr (some exCb) exChunk [5, 7] (1, 0, 0)).block :=
  claim_context_deferral exTr (some exCb) exChunk [5, 7] (0, 0, 0) (1, 0, 0) 5
    (by decide) (by decide) (by decide) (by decide) (by decide) rfl (by decide)

/-- C3 (code bug): when two voxels share the translated palette index, the
Pass-1 block-entity loop (source lines 84-88) mutates and appends the *same*
BlockEntity object once per voxel, so every appended entry aliases one
record whose position accumulates each voxel's offset: here both entries end
at (1,0,0) — the sum of the two voxel offsets — instead of one distinct
instance at (0,0,0) and one at (1,0,0) as the claim requires. -/
theorem claim_block_entity_per_voxel_bug :
    (translateChunk beTr none beChunk [7] true).1.block_entities =
      [⟨none, "be", 1, 0, 0⟩, ⟨none, "be", 1, 0, 0⟩]
    ∧ (translateChunk beTr none beChunk [7] true).1.block_entities ≠
      [⟨none, "be", 0, 0, 0⟩, ⟨none, "be", 1, 0, 0⟩] := by
  exact ⟨by decide, by decide⟩

/-- Counterexample to C9 as stated: with a registered version profile and a
failing per-value translator, `to_universal` aborts, but the chunk the
caller is left holding has its biome array already rewritten to [10] — not
its original state [1] — because `to_universal` translates biomes (source
line 192) before `_translate` runs the per-value translator. -/
theorem claim_error_atomicity_counterexample :
    (match to_universalE (some w9prof) w9tr none w9chunk [WVal.null] true with
      | Except.error (e, c) => e = TError.translatorFailed ∧ c.biomes = [10]
      | Except.ok _ => False)
    ∧ w9chunk.biomes = [1]
    ∧ ([10] : List Int) ≠ [1] := by
  exact ⟨⟨rfl, rfl⟩, rfl, by decide⟩

/-- C9 (amended): in `from_universal` the claim holds in full — a missing
version profile or a failing per-value translator leaves the caller's
chunk exactly as it was passed in, since the version lookup precedes
everything and every mutation (voxel indices, block entities, biomes,
renames) follows a successful `_translate`.  In `to_universal` the missing
version profile is likewise surfaced before any mutation, and a per-value
translator failure leaves the chunk's voxel-index array untouched with the
block-entity collection holding the renamed originals; but the biome array
has already been rewritten by the version's biome translator — the
pre-`_translate` biome and rename mutations of `to_universal` are not
rolled back. -/
theorem claim_error_atomicity (version : Option VersionProfile)
    (tr : TranslateFnE WVal) (cb : Option (ChunkCallback WVal))
    (chunk : Chunk WVal) (palette : List WVal) :
    (∀ (e : TError) (c : Chunk WVal),
      to_universalE version tr cb chunk palette true = Except.error (e, c) →
        (e = TError.missingVersion → c = chunk)
        ∧ (e = TError.translatorFailed →
            c.blocks = chunk.blocks
            ∧ ∃ vp, version = some vp
              ∧ c.biomes = biomes_to_universal vp.biome_to_universal chunk.biomes
              ∧ c.block_entities =
                  renameBlockEntities vp.block_entity_map chunk.block_entities))
    ∧ (∀ (e : TError) (c : Chunk WVal),
        from_universalE version tr cb chunk palette true = Except.error (e, c) →
          c = chunk) := by
  constructor
  · intro e c h
    cases version with
    | none =>
      unfold to_universalE at h
      injection h with h'
      injection h' with h1 h2
      refine ⟨fun _ => h2.symm, fun he => ?_⟩
      rw [← h1] at he
      exact absurd he (by decide)
    | some vp =>
      unfold to_universalE at h
      simp only at h
      cases hres : translateChunkE tr cb
          { chunk with
            biomes := biomes_to_universal vp.biome_to_universal chunk.biomes,
            block_entities :=
              renameBlockEntities vp.block_entity_map chunk.block_entities }
          palette true with
      | error err =>
        rw [hres] at h
        injection h with h'
        injection h' with h1 h2
        refine ⟨fun he => ?_, fun _ => ?_⟩
        · rw [← h1] at he
          exact absurd he (by decide)
        · refine ⟨by rw [← h2], vp, rfl, by rw [← h2], by rw [← h2]⟩
      | ok r =>
        rw [hres] at h
        exact absurd h (by simp)
  · intro e c h
    cases version with
    | none =>
      unfold from_universalE at h
      injection h with h'
      injection h' with h1 h2
      exact h2.symm
    | some vp =>
      unfold from_universalE at h
      simp only at h
      cases hres : translateChunkE tr cb chunk palette true with
      | error err =>
        rw [hres] at h
        injection h with h'
        injection h' with h1 h2
        exact h2.symm
      | ok r =>
        rw [hres] at h
        exact absurd h (by simp)

/-- Witness for C9's amended claim at the concrete counterexample input. -/
theorem claim_error_atomicity_witness :
    ((TError.translatorFailed = TError.missingVersion →
        ({ w9chunk with biomes := [10] } : Chunk WVal) = w9chunk)
      ∧ (TError.translatorFailed = TError.translatorFailed →
          ({ w9chunk with biomes := [10] } : Chunk WVal).blocks = w9chunk.blocks
          ∧ ∃ vp, (some w9prof : Option VersionProfile) = some vp
            ∧ ({ w9chunk with biomes := [10] } : Chunk WVal).biomes =
                biomes_to_universal vp.biome_to_universal w9chunk.biomes
            ∧ ({ w9chunk with biomes := [10] } : Chunk WVal).block_entities =
                renameBlockEntities vp.block_entity_map w9chunk.block_entities))
    ∧ w9chunk = w9chunk :=
  ⟨(claim_error_atomicity (some w9prof) w9tr none w9chunk [WVal.null]).1
      TError.translatorFailed { w9chunk with biomes := [10] } rfl,
    (claim_error_atomicity (some w9prof) w9tr none w9chunk [WVal.null]).2
      TError.translatorFailed w9chunk rfl⟩

/-- C10: for an input value that is an Entity rather than a Block, the
per-value `translate` closures of both `to_universal` and `from_universal`
return no translated block, no block entity, an empty produced-entities
list and a false context-dependent flag (the `elif isinstance(..., Entity):
pass` branch); and the engine then registers that null result like any
Pass-1 value: the entry is never deferred, gets a `palette_mappings` entry,
and the output palette's slot at that entry holds the null value. -/
theorem claim_entity_input_null :
    (∀ (t : SubTranslator) (e : Entity) (g : Option (GetBlockFn WVal)),
        translateToUniversal t (WVal.ent e) g = ⟨WVal.null, none, [], false⟩
      ∧ translateFromUniversal t (WVal.ent e) g = ⟨WVal.null, none, [], false⟩)
    ∧ (∀ (t : SubTranslator) (cb : Option (ChunkCallback WVal))
        (chunk : Chunk WVal) (palette : List WVal) (i : Nat) (e : Entity),
        palette.get? i = some (WVal.ent e) →
          i ∉ (pass1Of (translateToUniversal t) cb chunk palette).todo
          ∧ ∃ n, (i, n) ∈ (pass1Of (translateToUniversal t) cb chunk palette).mappings
            ∧ (translateChunk (translateToUniversal t) cb chunk palette true).2.get? n =
                some WVal.null) := by
  constructor
  · intro t e g
    exact ⟨rfl, rfl⟩
  · intro t cb chunk palette i e hget
    have hdP : deferP (translateToUniversal t) cb.isSome (i, WVal.ent e) = false := by
      unfold deferP
      simp [translateToUniversal]
    constructor
    · intro htodo
      obtain ⟨v, hv, hd⟩ :=
        (pass1_todo_mem_iff (translateToUniversal t) cb.isSome chunk palette i).mp htodo
      rw [hget] at hv
      cases hv
      rw [hdP] at hd
      exact Bool.false_ne_true hd
    · obtain ⟨n, hn⟩ :=
        pass1_mappings_mem (translateToUniversal t) cb.isSome chunk palette hget hdP
      refine ⟨n, hn, ?_⟩
      have hJ := pass1_J (translateToUniversal t) cb.isSome chunk palette (i, n) hn
      have hgetD : palette.getD i default = WVal.ent e := by
        simp [List.getD_eq_getElem?_getD, ← List.get?_eq_getElem?, hget]
      rw [hgetD] at hJ
      have hnull : (translateToUniversal t (WVal.ent e) none).block = WVal.null := rfl
      rw [hnull] at hJ
      rw [translateChunk_eq]
      simp only
      unfold pass2Of
      exact pass2Go_finished_preserve (translateToUniversal t) cb chunk palette _ _ hJ

/-- Witness for C10 at a concrete Entity palette entry. -/
theorem claim_entity_input_null_witness :
    0 ∉ (pass1Of (translateToUniversal wSubT) none wChunk [WVal.ent ⟨3⟩]).todo
    ∧ ∃ n, (0, n) ∈ (pass1Of (translateToUniversal wSubT) none wChunk [WVal.ent ⟨3⟩]).mappings
      ∧ (translateChunk (translateToUniversal wSubT) none wChunk [WVal.ent ⟨3⟩] true).2.get? n =
          some WVal.null :=
  claim_entity_input_null.2 wSubT none wChunk [WVal.ent ⟨3⟩] 0 ⟨3⟩ rfl

/-! Biome re-indexing lemmas. -/

theorem mem_insSorted (x v : Int) (l : List Int) :
    x ∈ insSorted v l ↔ x = v ∨ x ∈ l := by
  induction l with
  | nil => simp [insSorted]
  | cons w ws ih =>
    unfold insSorted
    by_cases h1 : v < w
    · rw [if_pos h1]
      simp only [List.mem_cons]
    · by_cases h2 : v = w
      · rw [if_neg h1, if_pos h2]
        subst h2
        simp only [List.mem_cons]
        tauto
      · rw [if_neg h1, if_neg h2]
        simp only [List.mem_cons, ih]
        tauto

theorem insSorted_pairwise (v : Int) (l : List Int)
    (h : l.Pairwise (· < ·)) : (insSorted v l).Pairwise (· < ·) := by
  induction l with
  | nil => simp [insSorted]
  | cons w ws ih =>
    unfold insSorted
    rcases List.pairwise_cons.mp h with ⟨hw, hws⟩
    by_cases h1 : v < w
    · rw [if_pos h1]
      refine List.pairwise_cons.mpr ⟨?_, h⟩
      intro x hx
      rcases List.mem_cons.mp hx with rfl | hx
      · exact h1
      · exact lt_trans h1 (hw x hx)
    · by_cases h2 : v = w
      · rw [if_neg h1, if_pos h2]
        exact h
      · rw [if_neg h1, if_neg h2]
        refine List.pairwise_cons.mpr ⟨?_, ih hws⟩
        intro x hx
        rcases (mem_insSorted x v ws).mp hx with rfl | hx
        · omega
        · exact hw x hx

theorem uniqueSorted_pairwise (arr : List Int) :
    (uniqueSorted arr).Pairwise (· < ·) := by
  induction arr with
  | nil => simp [uniqueSorted]
  | cons a l ih => exact insSorted_pairwise a _ ih

theorem uniqueSorted_nodup (arr : List Int) : (uniqueSorted arr).Nodup :=
  (uniqueSorted_pairwise arr).imp (fun h => ne_of_lt h)

theorem mem_uniqueSorted (arr : List Int) (v : Int) :
    v ∈ uniqueSorted arr ↔ v ∈ arr := by
  induction arr with
  | nil => simp [uniqueSorted]
  | cons a l ih =>
    show v ∈ insSorted a (uniqueSorted l) ↔ _
    rw [mem_insSorted]
    simp [ih]

theorem getD_of_get? {α : Type} {l : List α} {i : Nat} {x : α} (d : α)
    (h : l.get? i = some x) : l.getD i d = x := by
  rw [List.getD_eq_getElem?_getD, ← List.get?_eq_getElem?, h]
  rfl

theorem biomes_reindex_eq_map (f : Int → Int) (arr : List Int) :
    biomes_to_universal f arr = arr.map f := by
  unfold biomes_to_universal npUnique
  simp only
  rw [List.map_map]
  refine List.map_congr_left ?_
  intro v hv
  simp only [Function.comp]
  have hmem : v ∈ uniqueSorted arr := (mem_uniqueSorted arr v).mpr hv
  obtain ⟨i, hi⟩ := Option.isSome_iff_exists.mp (idxOf?_isSome_of_mem hmem)
  have hg : (uniqueSorted arr).get? i = some v := idxOf?_get hi
  have hgm : ((uniqueSorted arr).map f).get? i = some (f v) := by
    rw [List.get?_map, hg]
    rfl
  rw [listIndexOf, hi]
  exact getD_of_get? _ hgm

/-- C7: Biome re-indexing: in both directions, biome translation translates
only the sorted duplicate-free list of the distinct values of the input
biome array (`npUnique`), so the translator is invoked exactly once per
distinct value (the translated list is `u.map f` with `u` duplicate-free
and containing exactly the array's values), and the re-expansion through
the inverse index gives every voxel the translation of its original value;
the spec's example [1,1,2] yields [10,10,20] from a two-element distinct
list (two invocations, not three). -/
theorem claim_biome_reindexing :
    (∀ (f : Int → Int) (arr : List Int),
        biomes_to_universal f arr = arr.map f
      ∧ biomes_from_universal f arr = arr.map f
      ∧ (npUnique arr).1.Nodup
      ∧ (∀ v : Int, v ∈ (npUnique arr).1 ↔ v ∈ arr))
    ∧ biomes_to_universal
        (fun v => if v = 1 then 10 else if v = 2 then 20 else v) [1, 1, 2]
        = [10, 10, 20]
    ∧ ((npUnique [1, 1, 2]).1.map
        (fun v => if v = 1 then 10 else if v = 2 then 20 else v)).length = 2 := by
  refine ⟨?_, by decide, by decide⟩
  intro f arr
  exact ⟨biomes_reindex_eq_map f arr, biomes_reindex_eq_map f arr,
    uniqueSorted_nodup arr, fun v => mem_uniqueSorted arr v⟩

theorem combineBlocks_push (ob : Option Block) (b : Block)
    (bs : List Block) :
    combineBlocks ob (b :: bs) =
      combineBlocks (some (match ob with
        | none => b
        | some a => a.add b)) bs := by
  cases ob <;> simp [combineBlocks]

theorem foldStep_mk (t : SubTranslator) (gbc : Option (GetBlockFn WVal))
    (acc : FoldAcc) (d : Nat) (sb : BlockBase) :
    foldStep t gbc acc (d, sb) =
      (match (t sb gbc).1 with
        | TransObj.blk ob =>
            { acc with
              final_block := match acc.final_block with
                | none => some ob
                | some a => some (a.add ob),
              final_block_entity :=
                if d = 0 then (t sb gbc).2.1 else acc.final_block_entity,
              final_extra := acc.final_extra || (t sb gbc).2.2 }
        | TransObj.ent e =>
            { acc with
              final_entities := acc.final_entities ++ [e],
              final_extra := acc.final_extra || (t sb gbc).2.2 }
        | TransObj.null =>
            { acc with final_extra := acc.final_extra || (t sb gbc).2.2 }) := rfl

theorem foldStep_tail (t : SubTranslator) (gbc : Option (GetBlockFn WVal))
    (l : List BlockBase) :
    ∀ (d : Nat) (acc : FoldAcc),
      (List.enumFrom (d + 1) l).foldl (foldStep t gbc) acc =
        ⟨combineBlocks acc.final_block (blocksOf (subOutputs t gbc l)),
          acc.final_block_entity,
          acc.final_entities ++ entsOf (subOutputs t gbc l),
          acc.final_extra || anyExtra (subOutputs t gbc l)⟩ := by
  induction l with
  | nil =>
    intro d acc
    simp only [List.enumFrom, List.foldl_nil, subOutputs, List.map_nil]
    cases acc with
    | mk fb fbe ents ex =>
      cases fb <;> simp [combineBlocks, blocksOf, entsOf, anyExtra]
  | cons sb l ih =>
    intro d acc
    have henum : List.enumFrom (d + 1) (sb :: l) =
        (d + 1, sb) :: List.enumFrom (d + 1 + 1) l := rfl
    rw [henum, List.foldl_cons, ih (d + 1)]
    have houts : subOutputs t gbc (sb :: l) =
        t sb gbc :: subOutputs t gbc l := rfl
    rw [houts]
    cases ho : (t sb gbc).1 with
    | blk ob =>
      have hstep : foldStep t gbc acc (d + 1, sb) =
          { acc with
            final_block := match acc.final_block with
              | none => some ob
              | some a => some (a.add ob),
            final_extra := acc.final_extra || (t sb gbc).2.2 } := by
        rw [foldStep_mk, ho]
        rfl
      rw [hstep]
      have hbl : blocksOf (t sb gbc :: subOutputs t gbc l) =
          ob :: blocksOf (subOutputs t gbc l) := by
        simp [blocksOf, ho]
      have hen : entsOf (t sb gbc :: subOutputs t gbc l) =
          entsOf (subOutputs t gbc l) := by
        simp [entsOf, ho]
      have hex : anyExtra (t sb gbc :: subOutputs t gbc l) =
          ((t sb gbc).2.2 || anyExtra (subOutputs t gbc l)) := by
        simp [anyExtra]
      rw [hbl, hen, hex, combineBlocks_push]
      cases hacc : acc.final_block <;> simp [hacc, Bool.or_assoc]
    | ent e =>
      have hstep : foldStep t gbc acc (d + 1, sb) =
          { acc with
            final_entities := acc.final_entities ++ [e],
            final_extra := acc.final_extra || (t sb gbc).2.2 } := by
        rw [foldStep_mk, ho]
      rw [hstep]
      have hbl : blocksOf (t sb gbc :: subOutputs t gbc l) =
          blocksOf (subOutputs t gbc l) := by
        simp [blocksOf, ho]
      have hen : entsOf (t sb gbc :: subOutputs t gbc l) =
          e :: entsOf (subOutputs t gbc l) := by
        simp [entsOf, ho]
      have hex : anyExtra (t sb gbc :: subOutputs t gbc l) =
          ((t sb gbc).2.2 || anyExtra (subOutputs t gbc l)) := by
        simp [anyExtra]
      rw [hbl, hen, hex]
      simp [Bool.or_assoc]
    | null =>
      have hstep : foldStep t gbc acc (d + 1, sb) =
          { acc with final_extra := acc.final_extra || (t sb gbc).2.2 } := by
        rw [foldStep_mk, ho]
      rw [hstep]
      have hbl : blocksOf (t sb gbc :: subOutputs t gbc l) =
          blocksOf (subOutputs t gbc l) := by
        simp [blocksOf, ho]
      have hen : entsOf (t sb gbc :: subOutputs t gbc l) =
          entsOf (subOutputs t gbc l) := by
        simp [entsOf, ho]
      have hex : anyExtra (t sb gbc :: subOutputs t gbc l) =
          ((t sb gbc).2.2 || anyExtra (subOutputs t gbc l)) := by
        simp [anyExtra]
      rw [hbl, hen, hex]
      simp [Bool.or_assoc]

/-- The embedded `translate` closure of `to_universal` agrees with the
spec's composite-folding description on every Block input. -/
theorem translateToUniversal_spec (t : SubTranslator) (b : Block)
    (gbc : Option (GetBlockFn WVal)) :
    translateToUniversal t (WVal.blk b) gbc = specCompositeFold t b gbc := by
  unfold translateToUniversal specCompositeFold
  simp only
  have henum : (b.base_block :: b.extra_blocks).enum =
      (0, b.base_block) :: List.enumFrom (0 + 1) b.extra_blocks := rfl
  rw [henum, List.foldl_cons]
  have houts : subOutputs t gbc (b.base_block :: b.extra_blocks) =
      t b.base_block gbc :: subOutputs t gbc b.extra_blocks := rfl
  rw [houts]
  cases ho : (t b.base_block gbc).1 with
  | blk ob =>
    have hstep : foldStep t gbc ⟨none, none, [], false⟩ (0, b.base_block) =
        ⟨some ob, (t b.base_block gbc).2.1, [], false || (t b.base_block gbc).2.2⟩ := by
      rw [foldStep_mk, ho]
      rfl
    rw [hstep, foldStep_tail]
    have hbl : blocksOf (t b.base_block gbc :: subOutputs t gbc b.extra_blocks) =
        ob :: blocksOf (subOutputs t gbc b.extra_blocks) := by
      simp [blocksOf, ho]
    have hen : entsOf (t b.base_block gbc :: subOutputs t gbc b.extra_blocks) =
        entsOf (subOutputs t gbc b.extra_blocks) := by
      simp [entsOf, ho]
    have hex : anyExtra (t b.base_block gbc :: subOutputs t gbc b.extra_blocks) =
        ((t b.base_block gbc).2.2 || anyExtra (subOutputs t gbc b.extra_blocks)) := by
      simp [anyExtra]
    rw [hbl, combineBlocks_push, hen, hex]
    simp [ho, combineBlocks]
  | ent e =>
    have hstep : foldStep t gbc ⟨none, none, [], false⟩ (0, b.base_block) =
        ⟨none, none, [e], false || (t b.base_block gbc).2.2⟩ := by
      rw [foldStep_mk, ho]
      rfl
    rw [hstep, foldStep_tail]
    have hbl : blocksOf (t b.base_block gbc :: subOutputs t gbc b.extra_blocks) =
        blocksOf (subOutputs t gbc b.extra_blocks) := by
      simp [blocksOf, ho]
    have hen : entsOf (t b.base_block gbc :: subOutputs t gbc b.extra_blocks) =
        e :: entsOf (subOutputs t gbc b.extra_blocks) := by
      simp [entsOf, ho]
    have hex : anyExtra (t b.base_block gbc :: subOutputs t gbc b.extra_blocks) =
        ((t b.base_block gbc).2.2 || anyExtra (subOutputs t gbc b.extra_blocks)) := by
      simp [anyExtra]
    rw [hbl, hen, hex]
    simp [ho, combineBlocks]
  | null =>
    have hstep : foldStep t gbc ⟨none, none, [], false⟩ (0, b.base_block) =
        ⟨none, none, [], false || (t b.base_block gbc).2.2⟩ := by
      rw [foldStep_mk, ho]
    rw [hstep, foldStep_tail]
    have hbl : blocksOf (t b.base_block gbc :: subOutputs t gbc b.extra_blocks) =
        blocksOf (subOutputs t gbc b.extra_blocks) := by
      simp [blocksOf, ho]
    have hen : entsOf (t b.base_block gbc :: subOutputs t gbc b.extra_blocks) =
        entsOf (subOutputs t gbc b.extra_blocks) := by
      simp [entsOf, ho]
    have hex : anyExtra (t b.base_block gbc :: subOutputs t gbc b.extra_blocks) =
        ((t b.base_block gbc).2.2 || anyExtra (subOutputs t gbc b.extra_blocks)) := by
      simp [anyExtra]
    rw [hbl, hen, hex]
    simp [ho, combineBlocks]

/-- C6: Composite folding: translating a Block invokes the single-value
translator once per sub-block in order (the translator outputs of a pass
are exactly its map over the base::extras chain); the first non-null
translated Block becomes the accumulator and each later translated Block is
composed onto it with `+`; only the depth-zero sub-block's translation may
supply the resulting BlockEntity; translated Entity results are appended to
the produced-entities list in order; and the context-dependent flag is the
OR of all sub-blocks' flags — in particular, a Block with base `A` and
single extra `B`, translated to `A'` and `B'`, yields `A' + B'` (extra list
`[B']`) with the BlockEntity only from `A`'s translation. -/
theorem claim_composite_folding :
    (∀ (t : SubTranslator) (b : Block) (gbc : Option (GetBlockFn WVal)),
        translateToUniversal t (WVal.blk b) gbc = specCompositeFold t b gbc)
    ∧ translateToUniversal exSubT (WVal.blk ⟨exA, [exB]⟩) none =
        ⟨WVal.blk (Block.add ⟨exAU, []⟩ ⟨exBU, []⟩), some exBe, [], false⟩
    ∧ Block.add ⟨exAU, []⟩ ⟨exBU, []⟩ = ⟨exAU, [exBU]⟩ := by
  exact ⟨translateToUniversal_spec, by decide, by decide⟩

/-! Neighbor-lookup closure lemmas. -/

theorem fdiv16_eq_zero_iff (a : Int) : a.fdiv 16 = 0 ↔ 0 ≤ a ∧ a < 16 := by
  constructor
  · intro h
    have hm : a.fmod 16 = a := by
      rw [Int.fmod_def, h]
      simp
    rw [Int.fmod_eq_emod a (by decide)] at hm
    have h1 : 0 ≤ a % 16 := Int.emod_nonneg a (by decide)
    have h2 : a % 16 < 16 := Int.emod_lt_of_pos a (by decide)
    rw [hm] at h1 h2
    exact ⟨h1, h2⟩
  · rintro ⟨h1, h2⟩
    rw [Int.fdiv_eq_ediv a (by decide)]
    exact Int.ediv_eq_zero_of_lt h1 h2

/-- C5: applied to a relative offset, the Pass-2 neighbor-lookup closure
computes the neighbor's absolute coordinate in the frame of the current
chunk (which spans x and z in [0,16)); if that coordinate lies inside the
current chunk's footprint — equivalently its floor-quotients by 16 are
zero, in which case the code's `% 16` reduction is the identity — it
returns the current palette's value at exactly that voxel together with the
BlockEntity stored at that position, if any; otherwise it invokes the
resolver with the owning chunk's coordinate, the floor-division of the
coordinate by the chunk footprint size 16, and returns the value and
BlockEntity read from the resolver's chunk and palette at the in-chunk
offset (the coordinate minus 16 times the owning chunk coordinate). -/
theorem claim_neighbor_lookup {V : Type} (f : ChunkCallback V)
    (palette : List V) (chunk : Chunk V) (x y z : Int) (pos : Pos) :
    ((pos.1 + x).fdiv 16 = 0 ∧ (pos.2.2 + z).fdiv 16 = 0 →
      get_block_at (some f) palette chunk x y z pos =
        (palette.get? (chunk.blocks.val (pos.1 + x, pos.2.1 + y, pos.2.2 + z))).map
          (fun v => (v, chunk.block_entities.find? (fun be =>
            be.x == pos.1 + x && be.y == pos.2.1 + y && be.z == pos.2.2 + z))))
    ∧ (¬((pos.1 + x).fdiv 16 = 0 ∧ (pos.2.2 + z).fdiv 16 = 0) →
      get_block_at (some f) palette chunk x y z pos =
        ((f ((pos.1 + x).fdiv 16) ((pos.2.2 + z).fdiv 16)).2.get?
          ((f ((pos.1 + x).fdiv 16) ((pos.2.2 + z).fdiv 16)).1.blocks.val
            (pos.1 + x - 16 * ((pos.1 + x).fdiv 16), pos.2.1 + y,
              pos.2.2 + z - 16 * ((pos.2.2 + z).fdiv 16)))).map
          (fun v => (v, (f ((pos.1 + x).fdiv 16)
              ((pos.2.2 + z).fdiv 16)).1.block_entities.find? (fun be =>
            be.x == pos.1 + x && be.y == pos.2.1 + y && be.z == pos.2.2 + z)))) := by
  constructor
  · rintro ⟨h1, h3⟩
    have e1 : (pos.1 + x).fmod 16 = pos.1 + x :=
      Int.fmod_eq_of_lt ((fdiv16_eq_zero_iff _).mp h1).1
        ((fdiv16_eq_zero_iff _).mp h1).2
    have e3 : (pos.2.2 + z).fmod 16 = pos.2.2 + z :=
      Int.fmod_eq_of_lt ((fdiv16_eq_zero_iff _).mp h3).1
        ((fdiv16_eq_zero_iff _).mp h3).2
    simp only [get_block_at]
    rw [if_pos ⟨h1, h3⟩, e1, e3]
    cases hget : palette.get? (chunk.blocks.val (pos.1 + x, pos.2.1 + y, pos.2.2 + z)) with
    | none => simp
    | some v => simp
  · intro h
    have e1 : (pos.1 + x).fmod 16 = pos.1 + x - 16 * ((pos.1 + x).fdiv 16) :=
      Int.fmod_def _ _
    have e3 : (pos.2.2 + z).fmod 16 = pos.2.2 + z - 16 * ((pos.2.2 + z).fdiv 16) :=
      Int.fmod_def _ _
    simp only [get_block_at]
    rw [if_neg h, e1, e3]
    cases hget : (f ((pos.1 + x).fdiv 16) ((pos.2.2 + z).fdiv 16)).2.get?
        ((f ((pos.1 + x).fdiv 16) ((pos.2.2 + z).fdiv 16)).1.blocks.val
          (pos.1 + x - 16 * ((pos.1 + x).fdiv 16), pos.2.1 + y,
            pos.2.2 + z - 16 * ((pos.2.2 + z).fdiv 16))) with
    | none => simp [hget]
    | some v => simp [hget]

/-- Witness for C5: an in-chunk lookup (offset (0,0,0) from voxel x=1)
reads the current palette, an out-of-chunk lookup (offset (-2,0,0), landing
at x = -1 in chunk -1) reads the resolver's palette. -/
theorem claim_neighbor_lookup_witness :
    get_block_at (some c5cb) [3] c5chunk 1 0 0 (0, 0, 0) = some (3, none)
    ∧ get_block_at (some c5cb) [3] c5chunk 1 0 0 (-2, 0, 0) = some (8, none) :=
  ⟨(claim_neighbor_lookup c5cb [3] c5chunk 1 0 0 (0, 0, 0)).1 (by decide),
    (claim_neighbor_lookup c5cb [3] c5chunk 1 0 0 (-2, 0, 0)).2 (by decide)⟩

end Amulet
